import Mathlib

/-!
Verification of the Silicium kernel core against its specification.

Each subsystem relevant to the claims is shallowly embedded: the Rust
functions become Lean functions over explicit state, u64/usize arithmetic
becomes Nat (with explicit panics modelled as `Option`/dedicated result
constructors where the source can panic), and bitflag sets become either
records of Booleans (frame/thread flags, whose bits are only ever tested
individually) or Nat bitmasks (page-entry flags, which are stored and
compared wholesale).

Primitives that live in the repository's `silicium-x86_64` support crate
(whose paging/address sources are not part of this tree) are modelled from
the spec and are marked as such in their doc comments.
-/

namespace Silicium

/-! ## Round-robin scheduler (src/sys/schedule/round_robin.rs, mod.rs) -/

namespace Sched

/-- Thread priorities (`sys::thread::Priority`). -/
inductive Priority where
  | idle | low | normal | high | realtime
deriving DecidableEq, Repr

/-- Thread states (`sys::thread::State`). -/
inductive TState where
  | created | ready | running | blocked | waiting | sleeping | zombie
deriving DecidableEq, Repr

/-- One run-list entry (`ThreadInfo` together with the fields of the shared
`Thread` that the scheduler reads and writes: tid, priority, state and the
NEED_SCHEDULING flag). -/
structure Entry where
  tid : Nat
  prio : Priority
  state : TState
  needSched : Bool
  quantum : Nat
deriving DecidableEq, Repr

/-- `Scheduler::QUANTUM`. -/
def QUANTUM : Nat := 20

/-- `Scheduler::pick_next`: first run-list entry with positive quantum,
non-idle priority and `Ready` state; that entry's state is set to `Running`.
Returns the updated run list and the selected entry (post-update). -/
def pickNext : List Entry → Option (List Entry × Entry)
  | [] => none
  | e :: r =>
    if e.quantum > 0 ∧ e.prio ≠ .idle ∧ e.state = .ready then
      some (({ e with state := .running }) :: r, { e with state := .running })
    else
      (pickNext r).map (fun p => (e :: p.1, p.2))

/-- `Scheduler::pick_idle`: first idle-priority `Ready` entry, set `Running`.
Returns `none` where the source would panic on `unwrap`. -/
def pickIdle : List Entry → Option (List Entry × Entry)
  | [] => none
  | e :: r =>
    if e.prio = .idle ∧ e.state = .ready then
      some (({ e with state := .running }) :: r, { e with state := .running })
    else
      (pickIdle r).map (fun p => (e :: p.1, p.2))

/-- `Scheduler::redistribute`: reset the quantum of every non-idle entry. -/
def redistribute (l : List Entry) : List Entry :=
  l.map (fun e => if e.prio ≠ .idle then { e with quantum := QUANTUM } else e)

/-- `Scheduler::timer_tick`: find the entry of the current thread; if its
quantum is 0 set its NEED_SCHEDULING flag, otherwise decrement the quantum.
`none` models the `unwrap` panic when the current tid is not in the list. -/
def timerTick (l : List Entry) (cur : Nat) : Option (List Entry) :=
  match l with
  | [] => none
  | e :: r =>
    if e.tid = cur then
      some ((if e.quantum = 0 then { e with needSched := true }
             else { e with quantum := e.quantum - 1 }) :: r)
    else
      (timerTick r cur).map (e :: ·)

/-- `Scheduler::add_thread`: set the thread `Ready` and append it with the
default quantum. -/
def addThread (l : List Entry) (e : Entry) : List Entry :=
  l ++ [{ e with state := .ready, quantum := QUANTUM }]

/-- Outcome of `Scheduler::schedule`'s thread-selection phase. -/
inductive Choice where
  | picked (l : List Entry) (e : Entry)
  | stayIdle
  | pickedIdle (l : List Entry) (e : Entry)
  | panicked
deriving Repr

/-- The selection phase of `Scheduler::schedule`: try `pick_next`, on failure
`redistribute` and retry, on failure stay on the current thread if it has
idle priority, otherwise fall back to `pick_idle`. -/
def scheduleSelect (l : List Entry) (cur : Entry) : Choice :=
  match pickNext l with
  | some (l', e) => .picked l' e
  | none =>
    let l₁ := redistribute l
    match pickNext l₁ with
    | some (l', e) => .picked l' e
    | none =>
      if cur.prio = .idle then .stayIdle
      else
        match pickIdle l₁ with
        | some (l', e) => .pickedIdle l' e
        | none => .panicked

/-- `pick_next` succeeds whenever some entry passes its three filters, and the
entry it picks is non-idle, was picked with positive quantum, and is returned
in the `Running` state. -/
theorem pickNext_spec (l : List Entry)
    (h : ∃ e ∈ l, 0 < e.quantum ∧ e.prio ≠ .idle ∧ e.state = .ready) :
    ∃ l' t, pickNext l = some (l', t) ∧ t.prio ≠ .idle ∧ t.state = .running ∧
      0 < t.quantum := by
  induction l with
  | nil => simp at h
  | cons e r ih =>
    by_cases hc : 0 < e.quantum ∧ e.prio ≠ .idle ∧ e.state = .ready
    · refine ⟨{ e with state := .running } :: r, { e with state := .running }, ?_, ?_, rfl, ?_⟩
      · simp [pickNext, hc]
      · exact hc.2.1
      · exact hc.1
    · obtain ⟨w, hw, hwc⟩ := h
      rcases List.mem_cons.mp hw with rfl | hwr
      · exact absurd hwc hc
      · obtain ⟨l', t, hpick, ht⟩ := ih ⟨w, hwr, hwc⟩
        exact ⟨e :: l', t, by simp [pickNext, hc, hpick], ht⟩

/-- `pick_next` fails when no entry passes its filters. -/
theorem pickNext_eq_none (l : List Entry)
    (h : ∀ e ∈ l, ¬(0 < e.quantum ∧ e.prio ≠ .idle ∧ e.state = .ready)) :
    pickNext l = none := by
  induction l with
  | nil => rfl
  | cons e r ih =>
    have he := h e (List.mem_cons_self e r)
    have hr := ih (fun x hx => h x (List.mem_cons_of_mem e hx))
    simp [pickNext, he, hr]

/-- C4. Scheduler progress, exactly as the round-robin code implements it: if
some non-idle entry is `Ready` with positive quantum, `schedule`'s selection
picks a non-idle thread (part 1); and if a non-idle `Ready` entry exists but
every non-idle `Ready` entry has quantum 0, the same call — whose first
`pick_next` fails, triggering `redistribute` and a retry — picks a non-idle
thread and marks it `Running` (part 2). -/
theorem scheduler_progress (l : List Entry) (cur : Entry) :
    ((∃ e ∈ l, e.prio ≠ .idle ∧ e.state = .ready ∧ 0 < e.quantum) →
      ∃ l' t, scheduleSelect l cur = .picked l' t ∧ t.prio ≠ .idle) ∧
    (((∃ e ∈ l, e.prio ≠ .idle ∧ e.state = .ready) ∧
      (∀ e ∈ l, e.prio ≠ .idle → e.state = .ready → e.quantum = 0)) →
      ∃ l' t, scheduleSelect l cur = .picked l' t ∧ t.prio ≠ .idle ∧
        t.state = .running) := by
  constructor
  · rintro ⟨e, he, hprio, hstate, hq⟩
    obtain ⟨l', t, hpick, htprio, htstate, -⟩ :=
      pickNext_spec l ⟨e, he, hq, hprio, hstate⟩
    exact ⟨l', t, by simp [scheduleSelect, hpick], htprio⟩
  · rintro ⟨⟨e, he, hprio, hstate⟩, hzero⟩
    have hnone : pickNext l = none := by
      refine pickNext_eq_none l (fun x hx hc => ?_)
      have := hzero x hx hc.2.1 hc.2.2
      omega
    have hmem : { e with quantum := QUANTUM } ∈ redistribute l := by
      have : (fun x => if x.prio ≠ Priority.idle then { x with quantum := QUANTUM } else x) e
          = { e with quantum := QUANTUM } := by simp [hprio]
      exact this ▸ List.mem_map_of_mem _ he
    obtain ⟨l', t, hpick, htprio, htstate, -⟩ :=
      pickNext_spec (redistribute l)
        ⟨{ e with quantum := QUANTUM }, hmem, by simp [QUANTUM], hprio, hstate⟩
    exact ⟨l', t, by simp [scheduleSelect, hnone, hpick], htprio, htstate⟩

/-- Witness for C4 at a concrete run list. -/
theorem scheduler_progress_witness :
    ∃ l' t, scheduleSelect
        [{ tid := 1, prio := .idle, state := .ready, needSched := false, quantum := 0 },
         { tid := 2, prio := .normal, state := .ready, needSched := false, quantum := 3 }]
        { tid := 2, prio := .normal, state := .running, needSched := false, quantum := 3 }
      = .picked l' t ∧ t.prio ≠ .idle :=
  (scheduler_progress _ _).1
    ⟨{ tid := 2, prio := .normal, state := .ready, needSched := false, quantum := 3 },
      by simp, by simp, rfl, by simp⟩

/-- C8 counterexample: a tick on a current thread whose quantum is 1 drops the
quantum to 0 but does not set NEED_SCHEDULING, contradicting the claim that
the flag is set when the decrement reaches 0. -/
theorem timer_tick_claim_counterexample :
    timerTick [{ tid := 0, prio := .normal, state := .running, needSched := false,
                 quantum := 1 }] 0
      = some [{ tid := 0, prio := .normal, state := .running, needSched := false,
                quantum := 0 }] := by
  rfl

/-- C8 (amended). `timer_tick` updates the first run-list entry whose tid is
the current thread's: if its quantum is positive, the quantum is decremented
by one and NEED_SCHEDULING is untouched; if the quantum is already 0, it
stays 0 and NEED_SCHEDULING is set. Every other entry is unchanged. -/
theorem timer_tick_amended (pre post : List Entry) (e : Entry) (cur : Nat)
    (hpre : ∀ x ∈ pre, x.tid ≠ cur) (he : e.tid = cur) :
    ∃ e', timerTick (pre ++ e :: post) cur = some (pre ++ e' :: post) ∧
      (0 < e.quantum → e'.quantum = e.quantum - 1 ∧ e'.needSched = e.needSched) ∧
      (e.quantum = 0 → e'.quantum = 0 ∧ e'.needSched = true) ∧
      e'.tid = e.tid ∧ e'.prio = e.prio ∧ e'.state = e.state := by
  refine ⟨if e.quantum = 0 then { e with needSched := true }
          else { e with quantum := e.quantum - 1 }, ?_, ?_, ?_, ?_, ?_, ?_⟩
  · induction pre with
    | nil => simp [timerTick, he]
    | cons x xs ih =>
      have hx : x.tid ≠ cur := hpre x (List.mem_cons_self x xs)
      have := ih (fun y hy => hpre y (List.mem_cons_of_mem x hy))
      simp [timerTick, hx, this]
  · intro h
    have : ¬ e.quantum = 0 := by omega
    simp [this]
  · intro h
    simp [h]
  · split <;> rfl
  · split <;> rfl
  · split <;> rfl

/-- Witness for C8 (amended) at a concrete run list. -/
theorem timer_tick_amended_witness :
    ∃ e', timerTick
        [{ tid := 7, prio := .high, state := .ready, needSched := false, quantum := 5 },
         { tid := 3, prio := .normal, state := .running, needSched := false, quantum := 0 }] 3
      = some [{ tid := 7, prio := .high, state := .ready, needSched := false, quantum := 5 },
              e'] ∧
      (0 < (0:Nat) → e'.quantum = 0 - 1 ∧ e'.needSched = false) ∧
      ((0:Nat) = 0 → e'.quantum = 0 ∧ e'.needSched = true) ∧
      e'.tid = 3 ∧ e'.prio = .normal ∧ e'.state = .running :=
  timer_tick_amended
    [{ tid := 7, prio := .high, state := .ready, needSched := false, quantum := 5 }] []
    { tid := 3, prio := .normal, state := .running, needSched := false, quantum := 0 } 3
    (by decide) rfl

end Sched

/-! ## PID/TID bitmap allocators (src/sys/process.rs `Pid`, src/sys/thread.rs `Tid`)

`Pid::generate`/`Pid::release` and `Tid::generate`/`Tid::release` are
letter-for-letter identical (same `MAX`, same bitmap layout, same counters),
so a single embedding covers both.  Note that the source divides by
`size_of::<u64>()`, which is 8 (bytes), so each 64-bit bitmap word only ever
uses its low 8 bits; the map `id ↦ (id / 8, id % 8)` is still injective, which
is all that matters for uniqueness. -/

namespace Ids

/-- `Pid::MAX` / `Tid::MAX`. -/
def MAX : Nat := 32768

/-- The shared mutable state: the rotating offset (`PIDS_OFFSET`), the
used-ID counter (`PIDS_USED`) and the bitmap words (`PIDS`), each a u64. -/
structure IdState where
  offset : Nat
  used : Nat
  words : Nat → Nat

def updWord (w : Nat → Nat) (i v : Nat) : Nat → Nat :=
  fun j => if j = i then v else w j

/-- Whether the bitmap bit of `id` is set. -/
def bitOf (w : Nat → Nat) (id : Nat) : Bool :=
  (w (id / 8)).testBit (id % 8)

/-- The unbounded search loop inside `generate`, given `fuel` probes.  One
probe reads `offset % MAX`, advances the offset, and either moves on (bit
set) or sets the bit and returns the id.  `MAX` probes visit every residue
modulo `MAX` exactly once without mutating anything, so if the loop has not
found a free bit within `MAX` probes the source would spin forever; the model
returns `none` in that (unreachable from the initial state) case. -/
def scan (w : Nat → Nat) (off : Nat) : Nat → (Nat → Nat) × Nat × Option Nat
  | 0 => (w, off, none)
  | fuel+1 =>
    if (w (off % MAX / 8)).testBit (off % MAX % 8) then scan w (off + 1) fuel
    else (updWord w (off % MAX / 8) (w (off % MAX / 8) ||| 2 ^ (off % MAX % 8)),
          off + 1, some (off % MAX))

/-- `Pid::generate` / `Tid::generate`: `fetch_add` the used counter and undo
it (returning `None`) if the pre-increment value + 1 reaches `MAX`; otherwise
scan the bitmap from the rotating offset for a clear bit. -/
def generate (s : IdState) : IdState × Option Nat :=
  if s.used + 1 ≥ MAX then (s, none)
  else
    match scan s.words s.offset MAX with
    | (w', off', r) => ({ words := w', offset := off', used := s.used + 1 }, r)

/-- `Pid::release` / `Tid::release`: clear the bitmap bit (`*x &= !(1 << off)`
on the u64 word).  The used counter is not touched. -/
def release (s : IdState) (id : Nat) : IdState :=
  { s with
    words := updWord s.words (id / 8)
      (s.words (id / 8) &&& (2 ^ 64 - 1 - 2 ^ (id % 8))) }

/-- An operation against the allocator. -/
inductive IdOp where
  | gen
  | rel (id : Nat)

/-- A run of the allocator, together with the ghost list of live (generated,
not yet released) IDs and the ghost count of successful `generate` calls. -/
structure Trace where
  st : IdState
  live : List Nat
  succ : Nat

def step (t : Trace) : IdOp → Trace
  | .gen =>
    match generate t.st with
    | (s', some id) => { st := s', live := id :: t.live, succ := t.succ + 1 }
    | (s', none) => { st := s', live := t.live, succ := t.succ }
  | .rel id => { st := release t.st id, live := t.live.erase id, succ := t.succ }

/-- The boot state: offset 0, counter 0, all bitmap words 0. -/
def init : Trace :=
  { st := { offset := 0, used := 0, words := fun _ => 0 }, live := [], succ := 0 }

def runFrom (t : Trace) : List IdOp → Trace
  | [] => t
  | op :: ops => runFrom (step t op) ops

def run (ops : List IdOp) : Trace := runFrom init ops

theorem bitOf_set_self (w : Nat → Nat) (id : Nat) :
    bitOf (updWord w (id / 8) (w (id / 8) ||| 2 ^ (id % 8))) id = true := by
  simp [bitOf, updWord, Nat.testBit_lor, Nat.testBit_two_pow_self]

theorem bitOf_set_other (w : Nat → Nat) {q id : Nat} (h : q ≠ id) :
    bitOf (updWord w (id / 8) (w (id / 8) ||| 2 ^ (id % 8))) q = bitOf w q := by
  unfold bitOf updWord
  by_cases hd : q / 8 = id / 8
  · have hm : id % 8 ≠ q % 8 := by
      intro hm
      exact h (by omega)
    simp [hd, Nat.testBit_lor, Nat.testBit_two_pow_of_ne hm]
  · simp [hd]

/-- Bits of the u64 complement mask `!(1 << b)` for the bit positions the
allocator uses. -/
theorem testBit_clearMask {b i : Nat} (hb : b < 8) (hi : i < 8) :
    (2 ^ 64 - 1 - 2 ^ b).testBit i = decide (i ≠ b) := by
  interval_cases b <;> interval_cases i <;> decide

theorem bitOf_release_other (s : IdState) {q id : Nat} (h : q ≠ id) :
    bitOf (release s id).words q = bitOf s.words q := by
  unfold bitOf release updWord
  by_cases hd : q / 8 = id / 8
  · have hm : q % 8 ≠ id % 8 := by
      intro hm
      exact h (by omega)
    have h1 : id % 8 < 8 := Nat.mod_lt _ (by omega)
    have h2 : q % 8 < 8 := Nat.mod_lt _ (by omega)
    rw [hd]
    dsimp only
    rw [if_pos rfl, Nat.testBit_land, testBit_clearMask h1 h2]
    simp [hm]
  · simp [hd]

theorem bitOf_release_self (s : IdState) (id : Nat) :
    bitOf (release s id).words id = false := by
  have h1 : id % 8 < 8 := Nat.mod_lt _ (by omega)
  unfold bitOf release updWord
  dsimp only
  rw [if_pos rfl, Nat.testBit_land, testBit_clearMask h1 h1]
  simp

/-- What a successful scan did: the returned id is below `MAX`, its bit was
clear, and the result bitmap is the input bitmap with exactly that bit set. -/
theorem scan_some {w : Nat → Nat} {off fuel : Nat} {w' : Nat → Nat}
    {off' : Nat} {id : Nat} (h : scan w off fuel = (w', off', some id)) :
    id < MAX ∧ bitOf w id = false ∧
      w' = updWord w (id / 8) (w (id / 8) ||| 2 ^ (id % 8)) := by
  induction fuel generalizing off with
  | zero => simp [scan] at h
  | succ n ih =>
    unfold scan at h
    by_cases hb : (w (off % MAX / 8)).testBit (off % MAX % 8)
    · rw [if_pos hb] at h
      exact ih h
    · rw [if_neg hb] at h
      cases h
      refine ⟨Nat.mod_lt _ (by decide), ?_, rfl⟩
      simpa [bitOf] using hb

/-- A fuel-exhausted scan did not modify the bitmap. -/
theorem scan_none {w : Nat → Nat} {off fuel : Nat} {w' : Nat → Nat}
    {off' : Nat} (h : scan w off fuel = (w', off', none)) : w' = w := by
  induction fuel generalizing off with
  | zero =>
    unfold scan at h
    cases h
    rfl
  | succ n ih =>
    unfold scan at h
    by_cases hb : (w (off % MAX / 8)).testBit (off % MAX % 8)
    · rw [if_pos hb] at h
      exact ih h
    · rw [if_neg hb] at h
      cases h

/-- Case analysis of `generate`: either the used counter is saturated and
nothing happens, or the counter is incremented and a scan runs. -/
theorem generate_spec (s : IdState) :
    (s.used + 1 ≥ MAX ∧ generate s = (s, none)) ∨
    (s.used + 1 < MAX ∧ ∃ w' off' r, scan s.words s.offset MAX = (w', off', r) ∧
      generate s = ({ words := w', offset := off', used := s.used + 1 }, r)) := by
  by_cases hg : s.used + 1 ≥ MAX
  · exact Or.inl ⟨hg, by simp [generate, hg]⟩
  · refine Or.inr ⟨by omega, ?_⟩
    rcases hscan : scan s.words s.offset MAX with ⟨w', off', r⟩
    exact ⟨w', off', r, rfl, by simp [generate, hg, hscan]⟩

/-- The invariant carried along every run: live IDs are distinct, below
`MAX`, and marked in the bitmap; there are at most `used` of them; the used
counter never exceeds `MAX - 1`; and `used` dominates the success count. -/
def Inv (t : Trace) : Prop :=
  t.live.Nodup ∧ (∀ q ∈ t.live, q < MAX ∧ bitOf t.st.words q = true) ∧
    t.live.length ≤ t.st.used ∧ t.st.used ≤ MAX - 1 ∧ t.succ ≤ t.st.used

theorem inv_step {t : Trace} (h : Inv t) (op : IdOp) : Inv (step t op) := by
  obtain ⟨hnd, hlive, hlen, hused, hsucc⟩ := h
  cases op with
  | gen =>
    rcases generate_spec t.st with ⟨hge, hgen⟩ | ⟨hge, w', off', r, hscan, hgen⟩
    · show Inv (match generate t.st with
        | (s', some id) => { st := s', live := id :: t.live, succ := t.succ + 1 }
        | (s', none) => { st := s', live := t.live, succ := t.succ })
      rw [hgen]
      exact ⟨hnd, hlive, hlen, hused, hsucc⟩
    · show Inv (match generate t.st with
        | (s', some id) => { st := s', live := id :: t.live, succ := t.succ + 1 }
        | (s', none) => { st := s', live := t.live, succ := t.succ })
      rw [hgen]
      cases r with
      | some id =>
        obtain ⟨hidlt, hbit, hw'⟩ := scan_some hscan
        refine ⟨?_, ?_, ?_, ?_, ?_⟩
        · refine List.nodup_cons.mpr ⟨?_, hnd⟩
          intro hin
          have := (hlive id hin).2
          rw [hbit] at this
          exact Bool.false_ne_true this
        · intro q hq
          rcases List.mem_cons.mp hq with rfl | hq
          · exact ⟨hidlt, by simp [hw', bitOf_set_self]⟩
          · refine ⟨(hlive q hq).1, ?_⟩
            have hne : q ≠ id := by
              intro hqe
              have := (hlive q hq).2
              rw [hqe, hbit] at this
              exact Bool.false_ne_true this
            show bitOf w' q = true
            rw [hw', bitOf_set_other _ hne]
            exact (hlive q hq).2
        · show t.live.length + 1 ≤ t.st.used + 1
          omega
        · show t.st.used + 1 ≤ MAX - 1
          omega
        · show t.succ + 1 ≤ t.st.used + 1
          omega
      | none =>
        refine ⟨hnd, ?_, ?_, ?_, ?_⟩
        · intro q hq
          refine ⟨(hlive q hq).1, ?_⟩
          show bitOf w' q = true
          rw [scan_none hscan]
          exact (hlive q hq).2
        · show t.live.length ≤ t.st.used + 1
          omega
        · show t.st.used + 1 ≤ MAX - 1
          omega
        · show t.succ ≤ t.st.used + 1
          omega
  | rel id =>
    refine ⟨hnd.erase id, ?_, ?_, hused, hsucc⟩
    · intro q hq
      have hqlive := List.mem_of_mem_erase hq
      have hne : q ≠ id := ((List.Nodup.mem_erase_iff hnd).mp hq).1
      exact ⟨(hlive q hqlive).1, by
        rw [show (step t (.rel id)).st = release t.st id from rfl,
          bitOf_release_other _ hne]
        exact (hlive q hqlive).2⟩
    · exact le_trans (List.Sublist.length_le (List.erase_sublist id t.live)) hlen

theorem inv_runFrom {t : Trace} (h : Inv t) (ops : List IdOp) :
    Inv (runFrom t ops) := by
  induction ops generalizing t with
  | nil => exact h
  | cons op ops ih => exact ih (inv_step h op)

theorem inv_init : Inv init := by
  refine ⟨List.nodup_nil, ?_, le_refl 0, by decide, le_refl 0⟩
  intro q hq
  simp [init] at hq

/-- C9. For any sequence of generate/release operations, the live
(generated-and-not-released) IDs are pairwise distinct and never more than
`MAX` of them exist.  Models both `Pid` and `Tid`, whose code is identical. -/
theorem pid_tid_uniqueness (ops : List IdOp) :
    (run ops).live.Nodup ∧ (run ops).live.length ≤ MAX := by
  obtain ⟨hnd, -, hlen, hused, -⟩ := inv_runFrom inv_init ops
  exact ⟨hnd, le_trans hlen (by omega)⟩

/-- After a run whose used counter has saturated, no continuation ever
succeeds again: the state and success count are frozen except for bitmap
bits cleared by releases. -/
theorem runFrom_saturated {t : Trace} (h : MAX - 1 ≤ t.st.used)
    (more : List IdOp) :
    (runFrom t more).succ = t.succ ∧ (runFrom t more).st.used = t.st.used := by
  induction more generalizing t with
  | nil => exact ⟨rfl, rfl⟩
  | cons op ops ih =>
    have hstep : (step t op).succ = t.succ ∧ (step t op).st.used = t.st.used := by
      cases op with
      | gen =>
        have hg : t.st.used + 1 ≥ MAX := by
          have : (0:Nat) < MAX := by decide
          omega
        rcases generate_spec t.st with ⟨-, hgen⟩ | ⟨hlt, -⟩
        · have hid : step t IdOp.gen = t := by
            show (match generate t.st with
              | (s', some id) => { st := s', live := id :: t.live, succ := t.succ + 1 }
              | (s', none) => { st := s', live := t.live, succ := t.succ } : Trace) = t
            rw [hgen]
          rw [hid]
          exact ⟨rfl, rfl⟩
        · omega
      | rel id => exact ⟨rfl, rfl⟩
    obtain ⟨h1, h2⟩ := hstep
    obtain ⟨h3, h4⟩ := ih (t := step t op) (by omega)
    exact ⟨h3.trans h1, h4.trans h2⟩

/-- C10. The release path clears the bitmap bit but never decrements the
used counter; the counter dominates the number of successful generates and
is capped at `MAX - 1 = 32767`; a generate against a saturated counter
returns `None` without touching the state; and once a run has saturated the
counter, no continuation ever generates another ID. -/
theorem pid_tid_generate_ceiling (ops : List IdOp) :
    ((run ops).succ ≤ (run ops).st.used ∧ (run ops).st.used ≤ MAX - 1) ∧
    (∀ (s : IdState) (id : Nat), (release s id).used = s.used ∧
      bitOf (release s id).words id = false) ∧
    (∀ s : IdState, MAX - 1 ≤ s.used → generate s = (s, none)) ∧
    (∀ more : List IdOp, MAX - 1 ≤ (run ops).st.used →
      (runFrom (run ops) more).succ = (run ops).succ) := by
  obtain ⟨-, -, -, hused, hsucc⟩ := inv_runFrom inv_init ops
  refine ⟨⟨hsucc, hused⟩, ?_, ?_, ?_⟩
  · exact fun s id => ⟨rfl, bitOf_release_self s id⟩
  · intro s hs
    have hg : s.used + 1 ≥ MAX := by
      have : (0:Nat) < MAX := by decide
      omega
    simp [generate, hg]
  · intro more hsat
    exact (runFrom_saturated hsat more).1

/-- Witness for C10: a generate against a saturated counter returns `None`. -/
theorem pid_tid_generate_ceiling_witness :
    generate { offset := 0, used := 32767, words := fun _ => 0 }
      = ({ offset := 0, used := 32767, words := fun _ => 0 }, none) :=
  (pid_tid_generate_ceiling []).2.2.1
    { offset := 0, used := 32767, words := fun _ => 0 } (by decide)

end Ids

/-! ## Physical frame state and dummy allocator
(src/mm/frame/mod.rs, state.rs, dummy_allocator.rs) -/

namespace Frames

/-- `FrameFlags` (a bitflags set whose bits are only ever tested and toggled
individually, so it is embedded as a record of Booleans). -/
structure FrameFlags where
  poisoned : Bool
  reserved : Bool
  free : Bool
  zeroed : Bool
  dirty : Bool
  kernel : Bool
  borrowed : Bool
  bios : Bool
  isa : Bool
  x86 : Bool
deriving DecidableEq, Repr

/-- `FrameInfo`: flags, the frame's physical address, and the reference
count.  In Rust this struct is 24 bytes (three u64-sized fields). -/
structure FrameInfo where
  flags : FrameFlags
  frame : Nat
  count : Nat
deriving DecidableEq, Repr

def dummyFrame : FrameInfo :=
  ⟨⟨false, false, false, false, false, false, false, false, false, false⟩, 0, 0⟩

/-- `Stats` (all fields usize). -/
structure Stats where
  total : Nat
  usable : Nat
  allocated : Nat
  reserved : Nat
  kernel : Nat
  borrowed : Nat
  poisoned : Nat
deriving DecidableEq, Repr

/-- Limine memory-map entry types, grouped exactly as `State::setup` matches
on them. -/
inductive MType where
  | usable | kernelAndModules | bootloaderReclaimable | badMemory | other
deriving DecidableEq, Repr

structure MEntry where
  base : Nat
  len : Nat
  typ : MType
deriving DecidableEq, Repr

/-- Modelled from the spec: `Physical::frame_index` of the missing
`silicium-x86_64` address module — the index of the 4 KiB frame containing a
physical address (`addr >> PAGE_SHIFT`, PAGE_SHIFT = 12). -/
def index (a : Nat) : Nat := a / 4096

def isCounted (t : MType) : Bool :=
  match t with
  | .usable | .kernelAndModules | .bootloaderReclaimable => true
  | _ => false

/-- `State::find_last_usable_frame_index`. -/
def findLastUsable (mmap : List MEntry) : Nat :=
  index (((mmap.filter (fun e => isCounted e.typ)).map
    (fun e => e.base + e.len)).foldr max 0)

/-- `State::find_array_location`: the physical base of the first Usable entry
large enough to hold `last` 24-byte `FrameInfo`s (`none` models the
null-location assert). -/
def findArrayLocation (mmap : List MEntry) (last : Nat) : Option Nat :=
  (mmap.find? (fun e => decide (e.typ = .usable) && decide (e.len ≥ last * 24))).map
    (fun e => e.base)

/-- The flags the first setup loop gives frame `i` (address `4096 * i`):
POISONED plus the BIOS/ISA/X86 placement bits. -/
def initFlags (addr : Nat) : FrameFlags :=
  { poisoned := true, reserved := false, free := false, zeroed := false,
    dirty := false, kernel := false, borrowed := false,
    bios := decide (addr < 0x100000), isa := decide (addr < 0x1000000),
    x86 := decide (addr < 0x10000000) }

def initInfo (i : Nat) : FrameInfo :=
  { flags := initFlags (4096 * i), frame := 4096 * i, count := 0 }

/-- The per-frame update of the memory-map loop in `State::setup`, by entry
type, together with its statistics updates.  Subtractions are on usize. -/
def entryStep (t : MType) (fi : FrameInfo) (st : Stats) : FrameInfo × Stats :=
  match t with
  | .usable =>
    ({ fi with flags := { fi.flags with poisoned := false, free := true } },
     { st with poisoned := st.poisoned - 1, usable := st.usable + 1 })
  | .kernelAndModules | .bootloaderReclaimable =>
    ({ fi with
       flags := { fi.flags with poisoned := false, kernel := true },
       count := 1 },
     { st with
       allocated := st.allocated + 1,
       poisoned := st.poisoned - 1,
       kernel := st.kernel + 1,
       usable := st.usable + 1 })
  | .badMemory => (fi, st)
  | .other =>
    if fi.flags.poisoned then (fi, st)
    else
      ({ fi with flags := { fi.flags with poisoned := false, reserved := true } },
       { st with poisoned := st.poisoned - 1, reserved := st.reserved + 1 })

/-- Apply `entryStep t` to the `n` frames starting at index `i`. -/
def applyRange (t : MType) : Nat → Nat → List FrameInfo → Stats →
    List FrameInfo × Stats
  | _, 0, fr, st => (fr, st)
  | i, n+1, fr, st =>
    let p := entryStep t (fr.getD i dummyFrame) st
    applyRange t (i+1) n (fr.set i p.1) p.2

/-- Process one memory-map entry (`for frame in &mut array[start..end]`),
with both bounds clamped to `last`. -/
def applyEntry (last : Nat) (p : List FrameInfo × Stats) (e : MEntry) :
    List FrameInfo × Stats :=
  let start := min (index e.base) last
  let stop := min (index (e.base + e.len)) last
  applyRange e.typ start (stop - start) p.1 p.2

/-- The per-frame update of the final array-marking loop in `State::setup`:
clear FREE, set KERNEL, bump `allocated` and `kernel`.  (The source does not
touch the reference count here.) -/
def markStep (fi : FrameInfo) (st : Stats) : FrameInfo × Stats :=
  ({ fi with flags := { fi.flags with free := false, kernel := true } },
   { st with allocated := st.allocated + 1, kernel := st.kernel + 1 })

def markRange : Nat → Nat → List FrameInfo → Stats → List FrameInfo × Stats
  | _, 0, fr, st => (fr, st)
  | i, n+1, fr, st =>
    let p := markStep (fr.getD i dummyFrame) st
    markRange (i+1) n (fr.set i p.1) p.2

/-- `State::setup`.  Returns `none` where the source panics: no usable region
large enough for the frame array, or the inclusive slice
`array[start..=start + len*size_of::<Frame>()/4096]` out of bounds (the
source sizes this slice with `size_of::<Frame>()` = 8, not
`size_of::<FrameInfo>()` = 24). -/
def setup (mmap : List MEntry) : Option (List FrameInfo × Stats) :=
  match findArrayLocation mmap (findLastUsable mmap) with
  | none => none
  | some base =>
    if index base + findLastUsable mmap * 8 / 4096 < findLastUsable mmap then
      some (markRange (index base)
        (index base + findLastUsable mmap * 8 / 4096 + 1 - index base)
        (mmap.foldl (applyEntry (findLastUsable mmap))
          ((List.range (findLastUsable mmap)).map initInfo,
           { total := findLastUsable mmap, usable := 0, allocated := 0,
             reserved := 0, kernel := 0, borrowed := 0,
             poisoned := findLastUsable mmap })).1
        (mmap.foldl (applyEntry (findLastUsable mmap))
          ((List.range (findLastUsable mmap)).map initInfo,
           { total := findLastUsable mmap, usable := 0, allocated := 0,
             reserved := 0, kernel := 0, borrowed := 0,
             poisoned := findLastUsable mmap })).2)
    else none

/-- The allocator's view: the frame array (`FRAME_STATE`) plus the statistics
(`Allocator::statistic`, initialised from `setup`'s return value). -/
structure AllocState where
  frames : List FrameInfo
  stats : Stats
deriving DecidableEq, Repr

/-- The `iter_mut().find(FREE).map(...)` core of `Allocator::allocate`:
find the first FREE frame, optionally add KERNEL, clear FREE, retain
(count + 1; the u64 overflow panic of `retain` is unreachable), and
return the updated array with the frame's address.  Zeroing (`ZEROED`)
writes the frame's backing bytes, which the frame records do not carry. -/
def allocateGo (kernel : Bool) : List FrameInfo → Option (List FrameInfo × Nat)
  | [] => none
  | fi :: rest =>
    if fi.flags.free then
      let fi1 := if kernel then { fi with flags := { fi.flags with kernel := true } }
                 else fi
      some (({ fi1 with
               flags := { fi1.flags with free := false },
               count := fi1.count + 1 }) :: rest, fi.frame)
    else
      (allocateGo kernel rest).map (fun p => (fi :: p.1, p.2))

/-- `Allocator::allocate`. -/
def allocate (s : AllocState) (kernel : Bool) : AllocState × Option Nat :=
  match allocateGo kernel s.frames with
  | none => (s, none)
  | some (fr', addr) =>
    ({ frames := fr',
       stats := { s.stats with
                  allocated := s.stats.allocated + 1,
                  kernel := s.stats.kernel + (if kernel then 1 else 0) } },
     some addr)

/-- `Allocator::deallocate`.  `none` models the two panics (unknown frame
address, count already 0).  On a count that reaches 0 the source removes
KERNEL (decrementing the kernel statistic if it was set), removes KERNEL a
second time, inserts FREE and decrements `allocated`. -/
def deallocate (s : AllocState) (addr : Nat) : Option AllocState :=
  match s.frames[index addr]? with
  | none => none
  | some fi =>
    if fi.count = 0 then none
    else if fi.count - 1 = 0 then
      -- count reached 0: remove KERNEL (twice — the second removal in the
      -- source is a no-op), insert FREE, fix up the kernel and allocated
      -- statistics
      some { frames := s.frames.set (index addr)
               { fi with
                 flags := { fi.flags with kernel := false, free := true },
                 count := fi.count - 1 },
             stats := { s.stats with
                 kernel := s.stats.kernel - (if fi.flags.kernel then 1 else 0),
                 allocated := s.stats.allocated - 1 } }
    else
      some { s with
             frames := s.frames.set (index addr)
               { fi with count := fi.count - 1 } }

/-- A quiescent history of allocator calls. -/
inductive AOp where
  | alloc (kernel : Bool)
  | dealloc (addr : Nat)

def runAllocOps (s : AllocState) : List AOp → Option AllocState
  | [] => some s
  | .alloc k :: ops => runAllocOps (allocate s k).1 ops
  | .dealloc a :: ops =>
    match deallocate s a with
    | none => none
    | some s' => runAllocOps s' ops

/-- The sum the claim asserts equals `total`:
allocated + reserved + kernel + borrowed + FREE-count + poisoned. -/
def claimSum (fr : List FrameInfo) (st : Stats) : Nat :=
  st.allocated + st.reserved + st.kernel + st.borrowed +
    fr.countP (fun fi => fi.flags.free) + st.poisoned

/-- Frame state after a Usable memory-map entry has processed frame `i`. -/
def freeInfo (i : Nat) : FrameInfo :=
  { flags := { initFlags (4096 * i) with poisoned := false, free := true },
    frame := 4096 * i, count := 0 }

/-- Frame state after a KernelAndModules/BootloaderReclaimable entry has
processed frame `i`. -/
def kernelInfo (i : Nat) : FrameInfo :=
  { flags := { initFlags (4096 * i) with poisoned := false, kernel := true },
    frame := 4096 * i, count := 1 }

def freeB (fi : FrameInfo) : Bool := fi.flags.free
def poisB (fi : FrameInfo) : Bool := fi.flags.poisoned
def kernB (fi : FrameInfo) : Bool := fi.flags.kernel
def usedB (fi : FrameInfo) : Bool := fi.count != 0

@[simp] theorem freeB_initInfo (i : Nat) : freeB (initInfo i) = false := rfl
@[simp] theorem poisB_initInfo (i : Nat) : poisB (initInfo i) = true := rfl
@[simp] theorem kernB_initInfo (i : Nat) : kernB (initInfo i) = false := rfl
@[simp] theorem usedB_initInfo (i : Nat) : usedB (initInfo i) = false := rfl
@[simp] theorem freeB_freeInfo (i : Nat) : freeB (freeInfo i) = true := rfl
@[simp] theorem poisB_freeInfo (i : Nat) : poisB (freeInfo i) = false := rfl
@[simp] theorem kernB_freeInfo (i : Nat) : kernB (freeInfo i) = false := rfl
@[simp] theorem usedB_freeInfo (i : Nat) : usedB (freeInfo i) = false := rfl
@[simp] theorem freeB_kernelInfo (i : Nat) : freeB (kernelInfo i) = false := rfl
@[simp] theorem poisB_kernelInfo (i : Nat) : poisB (kernelInfo i) = false := rfl
@[simp] theorem kernB_kernelInfo (i : Nat) : kernB (kernelInfo i) = true := rfl
@[simp] theorem usedB_kernelInfo (i : Nat) : usedB (kernelInfo i) = true := rfl

/-- The accounting invariant: the corrected sum (without the kernel term,
which double-counts frames already in `allocated`) closes to `total`, the
poisoned and kernel statistics track their flag counts, `allocated` bounds
the referenced frames, and FREE frames are unreferenced and not KERNEL. -/
def Inv (fr : List FrameInfo) (st : Stats) : Prop :=
  st.allocated + st.reserved + st.borrowed + fr.countP freeB + st.poisoned
      = st.total ∧
    st.poisoned = fr.countP poisB ∧
    st.kernel = fr.countP kernB ∧
    fr.countP usedB ≤ st.allocated ∧
    ∀ fi ∈ fr, fi.flags.free = true → fi.count = 0 ∧ fi.flags.kernel = false

section ListLemmas

variable {α : Type _}

theorem getD_set_self (l : List α) (i : Nat) (x d : α) (h : i < l.length) :
    (l.set i x).getD i d = x := by
  induction l generalizing i with
  | nil => simp at h
  | cons a t ih =>
    cases i with
    | zero => rfl
    | succ n => exact ih n (by simpa using h)

theorem getD_set_ne (l : List α) (i j : Nat) (x d : α) (h : i ≠ j) :
    (l.set i x).getD j d = l.getD j d := by
  induction l generalizing i j with
  | nil => simp [List.set]
  | cons a t ih =>
    cases i with
    | zero =>
      cases j with
      | zero => exact absurd rfl h
      | succ m => rfl
    | succ n =>
      cases j with
      | zero => rfl
      | succ m => exact ih n m (by omega)

theorem countP_set (p : α → Bool) (l : List α) (i : Nat) (x d : α)
    (h : i < l.length) :
    (l.set i x).countP p + (if p (l.getD i d) then 1 else 0)
      = l.countP p + (if p x then 1 else 0) := by
  induction l generalizing i with
  | nil => simp at h
  | cons a t ih =>
    cases i with
    | zero => simp [List.countP_cons]; omega
    | succ n =>
      have := ih n (by simpa using h)
      simp only [List.set, List.countP_cons, List.getD_cons_succ]
      omega

theorem getD_range_map {β : Type _} (f : Nat → β) (n j : Nat) (d : β)
    (h : j < n) : ((List.range n).map f).getD j d = f j := by
  rw [List.getD_eq_getElem?_getD, List.getElem?_map, List.getElem?_range h]
  rfl

theorem getD_mem (l : List α) (i : Nat) (d : α) (h : i < l.length) :
    l.getD i d ∈ l := by
  rw [List.getD_eq_getElem?_getD, List.getElem?_eq_getElem h]
  exact List.getElem_mem h

end ListLemmas

/-- What one memory-map entry's loop does to the frames `[i, i+n)`: it
preserves the accounting invariant and every other frame, and a Usable entry
leaves every frame in its range in the `freeInfo` state. -/
theorem applyRange_spec (t : MType) (n : Nat) :
    ∀ (i : Nat) (fr : List FrameInfo) (st : Stats),
      i + n ≤ fr.length →
      Inv fr st →
      (∀ j, i ≤ j → j < i + n → fr.getD j dummyFrame = initInfo j) →
      (applyRange t i n fr st).1.length = fr.length ∧
      Inv (applyRange t i n fr st).1 (applyRange t i n fr st).2 ∧
      (∀ j, (j < i ∨ i + n ≤ j) →
        (applyRange t i n fr st).1.getD j dummyFrame = fr.getD j dummyFrame) ∧
      (t = .usable → ∀ j, i ≤ j → j < i + n →
        (applyRange t i n fr st).1.getD j dummyFrame = freeInfo j) := by
  induction n with
  | zero =>
    intro i fr st _ hInv _
    exact ⟨rfl, hInv, fun j _ => rfl, fun _ j h1 h2 => by omega⟩
  | succ n ih =>
    intro i fr st hlen hInv hvirgin
    have hilt : i < fr.length := by omega
    have hvi : fr.getD i dummyFrame = initInfo i := hvirgin i le_rfl (by omega)
    obtain ⟨hsum, hpois, hkern, hused, hfree⟩ := hInv
    rcases hes : entryStep t (fr.getD i dummyFrame) st with ⟨fi', st'⟩
    have hstep : applyRange t i (n+1) fr st = applyRange t (i+1) n (fr.set i fi') st' := by
      show applyRange t (i+1) n
          (fr.set i (entryStep t (fr.getD i dummyFrame) st).1)
          (entryStep t (fr.getD i dummyFrame) st).2
        = applyRange t (i+1) n (fr.set i fi') st'
      rw [hes]
    rw [hvi] at hes
    have hlen₁ : (fr.set i fi').length = fr.length := List.length_set fr i fi'
    have hcf := countP_set freeB fr i fi' dummyFrame hilt
    have hcp := countP_set poisB fr i fi' dummyFrame hilt
    have hck := countP_set kernB fr i fi' dummyFrame hilt
    have hcu := countP_set usedB fr i fi' dummyFrame hilt
    rw [hvi] at hcf hcp hck hcu
    have hmem₁ : ∀ fi ∈ fr.set i fi', fi ∈ fr ∨ fi = fi' := fun fi h =>
      List.mem_or_eq_of_mem_set h
    have hpoisge : 1 ≤ fr.countP poisB := by
      have hp : poisB (fr.getD i dummyFrame) = true := by
        rw [hvi]
        rfl
      have hmem := getD_mem fr i dummyFrame hilt
      calc 1 = [fr.getD i dummyFrame].countP poisB := by
            rw [List.countP_cons, List.countP_nil, hp]
            simp
      _ ≤ fr.countP poisB := by
          apply List.Sublist.countP_le
          simpa using List.singleton_sublist.mpr hmem
    -- invariant for the recursive call, and what the new frame looks like,
    -- by entry type
    have hmain : Inv (fr.set i fi') st' ∧ (t = .usable → fi' = freeInfo i) := by
      rcases t with _ | _ | _ | _ | _
      · -- Usable: POISONED cleared, FREE set; poisoned stat down, usable up
        have h1 : fi' = freeInfo i := by
          have := congrArg Prod.fst hes
          exact this.symm
        have h2 : st' = { st with
            poisoned := st.poisoned - 1, usable := st.usable + 1 } := by
          have := congrArg Prod.snd hes
          exact this.symm
        subst h1 h2
        simp at hcf hcp hck hcu
        refine ⟨⟨?_, ?_, ?_, ?_, ?_⟩, fun _ => rfl⟩
        · show st.allocated + st.reserved + st.borrowed + _ + (st.poisoned - 1) = st.total
          omega
        · show st.poisoned - 1 = _
          omega
        · show st.kernel = _
          omega
        · show _ ≤ st.allocated
          omega
        · intro fi hfi hfifree
          rcases hmem₁ fi hfi with hin | rfl
          · exact hfree fi hin hfifree
          · exact ⟨rfl, rfl⟩
      · -- KernelAndModules
        have h1 : fi' = kernelInfo i := by
          have := congrArg Prod.fst hes
          exact this.symm
        have h2 : st' = { st with
            allocated := st.allocated + 1, poisoned := st.poisoned - 1,
            kernel := st.kernel + 1, usable := st.usable + 1 } := by
          have := congrArg Prod.snd hes
          exact this.symm
        subst h1 h2
        simp at hcf hcp hck hcu
        refine ⟨⟨?_, ?_, ?_, ?_, ?_⟩, by simp⟩
        · show st.allocated + 1 + st.reserved + st.borrowed + _ + (st.poisoned - 1) = st.total
          omega
        · show st.poisoned - 1 = _
          omega
        · show st.kernel + 1 = _
          omega
        · show _ ≤ st.allocated + 1
          omega
        · intro fi hfi hfifree
          rcases hmem₁ fi hfi with hin | rfl
          · exact hfree fi hin hfifree
          · exact absurd hfifree (by simp [kernelInfo, initFlags])
      · -- BootloaderReclaimable: identical code path
        have h1 : fi' = kernelInfo i := by
          have := congrArg Prod.fst hes
          exact this.symm
        have h2 : st' = { st with
            allocated := st.allocated + 1, poisoned := st.poisoned - 1,
            kernel := st.kernel + 1, usable := st.usable + 1 } := by
          have := congrArg Prod.snd hes
          exact this.symm
        subst h1 h2
        simp at hcf hcp hck hcu
        refine ⟨⟨?_, ?_, ?_, ?_, ?_⟩, by simp⟩
        · show st.allocated + 1 + st.reserved + st.borrowed + _ + (st.poisoned - 1) = st.total
          omega
        · show st.poisoned - 1 = _
          omega
        · show st.kernel + 1 = _
          omega
        · show _ ≤ st.allocated + 1
          omega
        · intro fi hfi hfifree
          rcases hmem₁ fi hfi with hin | rfl
          · exact hfree fi hin hfifree
          · exact absurd hfifree (by simp [kernelInfo, initFlags])
      · -- BadMemory: nothing happens
        have h1 : fi' = initInfo i := by
          have := congrArg Prod.fst hes
          exact this.symm
        have h2 : st = st' := by
          have := congrArg Prod.snd hes
          exact this
        subst h1 h2
        simp at hcf hcp hck hcu
        refine ⟨⟨?_, ?_, ?_, ?_, ?_⟩, by simp⟩
        · show st.allocated + st.reserved + st.borrowed + _ + st.poisoned = st.total
          omega
        · omega
        · omega
        · omega
        · intro fi hfi hfifree
          rcases hmem₁ fi hfi with hin | rfl
          · exact hfree fi hin hfifree
          · exact absurd hfifree (by simp [initInfo, initFlags])
      · -- Other: the frame is still POISONED, so the inverted test skips it
        have h1 : fi' = initInfo i := by
          have := congrArg Prod.fst hes
          exact this.symm
        have h2 : st = st' := by
          have := congrArg Prod.snd hes
          exact this
        subst h1 h2
        simp at hcf hcp hck hcu
        refine ⟨⟨?_, ?_, ?_, ?_, ?_⟩, by simp⟩
        · show st.allocated + st.reserved + st.borrowed + _ + st.poisoned = st.total
          omega
        · omega
        · omega
        · omega
        · intro fi hfi hfifree
          rcases hmem₁ fi hfi with hin | rfl
          · exact hfree fi hin hfifree
          · exact absurd hfifree (by simp [initInfo, initFlags])
    obtain ⟨hInv₁, husable₁⟩ := hmain
    have hvirgin₁ : ∀ j, i + 1 ≤ j → j < (i + 1) + n →
        (fr.set i fi').getD j dummyFrame = initInfo j := by
      intro j h1 h2
      rw [getD_set_ne fr i j fi' dummyFrame (by omega)]
      exact hvirgin j (by omega) (by omega)
    obtain ⟨ihlen, ihInv, ihout, ihusable⟩ :=
      ih (i+1) (fr.set i fi') st' (by omega) hInv₁ hvirgin₁
    rw [hstep]
    refine ⟨ihlen.trans hlen₁, ihInv, ?_, ?_⟩
    · intro j hj
      rw [ihout j (by omega), getD_set_ne fr i j fi' dummyFrame (by omega)]
    · intro ht j h1 h2
      by_cases hji : j = i
      · subst hji
        rw [ihout j (by omega), getD_set_self fr j fi' dummyFrame hilt]
        exact husable₁ ht
      · exact ihusable ht j (by omega) (by omega)

/-- The index range of frames a memory-map entry covers. -/
def inRegion (e : MEntry) (j : Nat) : Prop :=
  index e.base ≤ j ∧ j < index (e.base + e.len)

/-- Disjointness of two entries at frame-index granularity. -/
def disjointE (a b : MEntry) : Prop :=
  index (a.base + a.len) ≤ index b.base ∨ index (b.base + b.len) ≤ index a.base

theorem index_mono {a b : Nat} (h : a ≤ b) : index a ≤ index b :=
  Nat.div_le_div_right h

/-- What the whole memory-map loop does: the invariant is established frame
by frame, regions of Usable entries end up `freeInfo`, and frames covered by
no entry are untouched. -/
theorem applyEntries_spec (last : Nat) (todo : List MEntry) :
    ∀ (fr : List FrameInfo) (st : Stats),
      fr.length = last →
      Inv fr st →
      (∀ e ∈ todo, ∀ j, inRegion e j → j < last →
        fr.getD j dummyFrame = initInfo j) →
      todo.Pairwise disjointE →
      (todo.foldl (applyEntry last) (fr, st)).1.length = last ∧
      Inv (todo.foldl (applyEntry last) (fr, st)).1
        (todo.foldl (applyEntry last) (fr, st)).2 ∧
      (∀ e ∈ todo, e.typ = .usable → ∀ j, inRegion e j → j < last →
        (todo.foldl (applyEntry last) (fr, st)).1.getD j dummyFrame = freeInfo j) ∧
      (∀ j, (∀ e ∈ todo, ¬ inRegion e j) →
        (todo.foldl (applyEntry last) (fr, st)).1.getD j dummyFrame
          = fr.getD j dummyFrame) := by
  induction todo with
  | nil =>
    intro fr st hlen hInv _ _
    exact ⟨hlen, hInv, by simp, fun j _ => rfl⟩
  | cons e rest ih =>
    intro fr st hlen hInv hvirgin hpair
    have hmono : index e.base ≤ index (e.base + e.len) := index_mono (by omega)
    have hins : min (index e.base) last + (min (index (e.base + e.len)) last
        - min (index e.base) last) ≤ fr.length := by
      rw [hlen]
      omega
    have hinreg : ∀ j, min (index e.base) last ≤ j →
        j < min (index e.base) last + (min (index (e.base + e.len)) last
          - min (index e.base) last) →
        inRegion e j ∧ j < last := by
      intro j h1 h2
      constructor
      · constructor <;> omega
      · omega
    obtain ⟨hlen₁, hInv₁, hout₁, husable₁⟩ :=
      applyRange_spec e.typ
        (min (index (e.base + e.len)) last - min (index e.base) last)
        (min (index e.base) last) fr st hins hInv
        (fun j h1 h2 =>
          hvirgin e (List.mem_cons_self e rest) j (hinreg j h1 h2).1
            (hinreg j h1 h2).2)
    have hstep : (e :: rest).foldl (applyEntry last) (fr, st)
        = rest.foldl (applyEntry last) (applyEntry last (fr, st) e) := rfl
    have hAE : applyEntry last (fr, st) e
        = applyRange e.typ (min (index e.base) last)
            (min (index (e.base + e.len)) last - min (index e.base) last)
            fr st := rfl
    have hdisjhead : ∀ e' ∈ rest, ∀ j, inRegion e' j → ¬ inRegion e j := by
      intro e' he' j hj hcontra
      have hd : disjointE e e' := (List.pairwise_cons.mp hpair).1 e' he'
      rcases hd with hd | hd
      · obtain ⟨h1, h2⟩ := hj
        obtain ⟨h3, h4⟩ := hcontra
        omega
      · obtain ⟨h1, h2⟩ := hj
        obtain ⟨h3, h4⟩ := hcontra
        omega
    have hvirgin₁ : ∀ e' ∈ rest, ∀ j, inRegion e' j → j < last →
        (applyEntry last (fr, st) e).1.getD j dummyFrame = initInfo j := by
      intro e' he' j hj hjlt
      rw [hAE, hout₁ j ?_]
      · exact hvirgin e' (List.mem_cons_of_mem e he') j hj hjlt
      · by_cases hc : j < min (index e.base) last
        · exact Or.inl hc
        · refine Or.inr ?_
          by_contra hcon
          push_neg at hcon
          exact hdisjhead e' he' j hj (hinreg j (by omega) (by omega)).1
    obtain ⟨ihlen, ihInv, ihusable, ihout⟩ :=
      ih (applyEntry last (fr, st) e).1 (applyEntry last (fr, st) e).2
        (by rw [hAE]; exact hlen₁.trans hlen) (by rw [hAE]; exact hInv₁)
        hvirgin₁ (List.pairwise_cons.mp hpair).2
    rw [hstep]
    have hpr : (applyEntry last (fr, st) e
        = ((applyEntry last (fr, st) e).1, (applyEntry last (fr, st) e).2)) := rfl
    rw [hpr]
    refine ⟨ihlen, ihInv, ?_, ?_⟩
    · intro e₀ he₀ htyp j hj hjlt
      rcases List.mem_cons.mp he₀ with rfl | he₀r
      · have hjin : min (index e₀.base) last ≤ j ∧
            j < min (index e₀.base) last + (min (index (e₀.base + e₀.len)) last
              - min (index e₀.base) last) := by
          obtain ⟨h1, h2⟩ := hj
          constructor <;> omega
        have hmark : (applyEntry last (fr, st) e₀).1.getD j dummyFrame
            = freeInfo j := by
          rw [hAE]
          exact husable₁ htyp j hjin.1 hjin.2
        rw [ihout j (fun e' he' hcon => hdisjhead e' he' j hcon hj), hmark]
      · exact ihusable e₀ he₀r htyp j hj hjlt
    · intro j hj
      have hnoe : ¬ (min (index e.base) last ≤ j ∧
          j < min (index e.base) last + (min (index (e.base + e.len)) last
            - min (index e.base) last)) := by
        intro hcon
        exact hj e (List.mem_cons_self e rest) (hinreg j hcon.1 hcon.2).1
      have h1 : (applyEntry last (fr, st) e).1.getD j dummyFrame
          = fr.getD j dummyFrame := by
        rw [hAE]
        apply hout₁
        omega
      rw [ihout j (fun e' he' => hj e' (List.mem_cons_of_mem e he')), h1]

/-- Frame state after the final marking loop has processed a frame. -/
def markedInfo (i : Nat) : FrameInfo :=
  { flags := { initFlags (4096 * i) with poisoned := false, kernel := true },
    frame := 4096 * i, count := 0 }

@[simp] theorem freeB_markedInfo (i : Nat) : freeB (markedInfo i) = false := rfl
@[simp] theorem poisB_markedInfo (i : Nat) : poisB (markedInfo i) = false := rfl
@[simp] theorem kernB_markedInfo (i : Nat) : kernB (markedInfo i) = true := rfl
@[simp] theorem usedB_markedInfo (i : Nat) : usedB (markedInfo i) = false := rfl

/-- The final marking loop preserves the accounting invariant when the frames
it touches are in the post-Usable `freeInfo` state. -/
theorem markRange_spec (n : Nat) :
    ∀ (i : Nat) (fr : List FrameInfo) (st : Stats),
      i + n ≤ fr.length →
      Inv fr st →
      (∀ j, i ≤ j → j < i + n → fr.getD j dummyFrame = freeInfo j) →
      Inv (markRange i n fr st).1 (markRange i n fr st).2 ∧
      (markRange i n fr st).1.length = fr.length := by
  induction n with
  | zero =>
    intro i fr st _ hInv _
    exact ⟨hInv, rfl⟩
  | succ n ih =>
    intro i fr st hlen hInv hfree
    have hilt : i < fr.length := by omega
    have hvi : fr.getD i dummyFrame = freeInfo i := hfree i le_rfl (by omega)
    obtain ⟨hsum, hpois, hkern, hused, hfre⟩ := hInv
    have hstep : markRange i (n+1) fr st
        = markRange (i+1) n (fr.set i (markedInfo i))
            { st with allocated := st.allocated + 1, kernel := st.kernel + 1 } := by
      show markRange (i+1) n
          (fr.set i (markStep (fr.getD i dummyFrame) st).1)
          (markStep (fr.getD i dummyFrame) st).2 = _
      rw [hvi]
      rfl
    have hcf := countP_set freeB fr i (markedInfo i) dummyFrame hilt
    have hcp := countP_set poisB fr i (markedInfo i) dummyFrame hilt
    have hck := countP_set kernB fr i (markedInfo i) dummyFrame hilt
    have hcu := countP_set usedB fr i (markedInfo i) dummyFrame hilt
    rw [hvi] at hcf hcp hck hcu
    simp at hcf hcp hck hcu
    have hInv₁ : Inv (fr.set i (markedInfo i))
        { st with allocated := st.allocated + 1, kernel := st.kernel + 1 } := by
      refine ⟨?_, ?_, ?_, ?_, ?_⟩
      · show st.allocated + 1 + st.reserved + st.borrowed + _ + st.poisoned = st.total
        omega
      · show st.poisoned = _
        omega
      · show st.kernel + 1 = _
        omega
      · show _ ≤ st.allocated + 1
        omega
      · intro fi hfi hfifree
        rcases List.mem_or_eq_of_mem_set hfi with hin | rfl
        · exact hfre fi hin hfifree
        · exact absurd hfifree (by simp [markedInfo, initFlags])
    have hfree₁ : ∀ j, i + 1 ≤ j → j < (i + 1) + n →
        (fr.set i (markedInfo i)).getD j dummyFrame = freeInfo j := by
      intro j h1 h2
      rw [getD_set_ne fr i j (markedInfo i) dummyFrame (by omega)]
      exact hfree j (by omega) (by omega)
    obtain ⟨ihInv, ihlen⟩ :=
      ih (i+1) (fr.set i (markedInfo i))
        { st with allocated := st.allocated + 1, kernel := st.kernel + 1 }
        (by rw [List.length_set]; omega) hInv₁ hfree₁
    rw [hstep]
    exact ⟨ihInv, ihlen.trans (List.length_set fr i (markedInfo i))⟩

/-- The slice the marking loop covers stays inside the frame range of the
Usable entry that hosts the frame array. -/
theorem mark_fits {L len : Nat} (hL : 1 ≤ L) (hlen : L * 24 ≤ len)
    (hmul : len % 4096 = 0) : L * 8 / 4096 < len / 4096 := by
  omega

/-- `setup` establishes the accounting invariant on any bootloader-shaped
memory map: entries page-aligned, nonempty and pairwise disjoint. -/
theorem setup_inv (mmap : List MEntry) (fr : List FrameInfo) (st : Stats)
    (halign : ∀ e ∈ mmap, e.base % 4096 = 0 ∧ e.len % 4096 = 0 ∧ 0 < e.len)
    (hdisj : mmap.Pairwise
      (fun a b => a.base + a.len ≤ b.base ∨ b.base + b.len ≤ a.base))
    (hsetup : setup mmap = some (fr, st)) : Inv fr st := by
  unfold setup at hsetup
  rcases hloc : findArrayLocation mmap (findLastUsable mmap) with _ | base
  · rw [hloc] at hsetup
    simp at hsetup
  rw [hloc] at hsetup
  simp only [] at hsetup
  by_cases hstop : index base + findLastUsable mmap * 8 / 4096 < findLastUsable mmap
  case neg =>
    rw [if_neg hstop] at hsetup
    simp at hsetup
  rw [if_pos hstop] at hsetup
  -- the chosen Usable entry hosting the frame array
  have hfound : ∃ e ∈ mmap, e.typ = .usable ∧ findLastUsable mmap * 24 ≤ e.len ∧
      e.base = base := by
    unfold findArrayLocation at hloc
    rcases hf : mmap.find? (fun e => decide (e.typ = .usable)
        && decide (e.len ≥ findLastUsable mmap * 24)) with _ | e
    · rw [hf] at hloc
      simp at hloc
    · rw [hf] at hloc
      simp at hloc
      have hp := List.find?_some hf
      simp at hp
      exact ⟨e, List.mem_of_find?_eq_some hf, hp.1, hp.2, hloc⟩
  obtain ⟨ec, hecmem, hectyp, heclen, hecbase⟩ := hfound
  -- the initial array and statistics
  have hlen0 : ((List.range (findLastUsable mmap)).map initInfo).length
      = findLastUsable mmap := by simp
  have hInv0 : Inv ((List.range (findLastUsable mmap)).map initInfo)
      { total := findLastUsable mmap, usable := 0, allocated := 0, reserved := 0,
        kernel := 0, borrowed := 0, poisoned := findLastUsable mmap } := by
    have hzero : ∀ (p : FrameInfo → Bool), (∀ i, p (initInfo i) = false) →
        ((List.range (findLastUsable mmap)).map initInfo).countP p = 0 := by
      intro p hp
      refine List.countP_eq_zero.mpr ?_
      intro x hx
      obtain ⟨i, -, rfl⟩ := List.mem_map.mp hx
      simp [hp i]
    have hall : ((List.range (findLastUsable mmap)).map initInfo).countP poisB
        = findLastUsable mmap := by
      have h1 : ((List.range (findLastUsable mmap)).map initInfo).countP poisB
          = ((List.range (findLastUsable mmap)).map initInfo).length :=
        List.countP_eq_length.mpr (by
          intro x hx
          obtain ⟨i, -, rfl⟩ := List.mem_map.mp hx
          simp)
      rw [h1, hlen0]
    refine ⟨?_, ?_, ?_, ?_, ?_⟩
    · simp [hzero freeB (by simp)]
    · simp [hall]
    · simp [hzero kernB (by simp)]
    · simp [hzero usedB (by simp)]
    · intro fi hfi hfree
      obtain ⟨i, -, rfl⟩ := List.mem_map.mp hfi
      exact absurd hfree (by simp [initInfo, initFlags])
  have hvirgin0 : ∀ e ∈ mmap, ∀ j, inRegion e j → j < findLastUsable mmap →
      ((List.range (findLastUsable mmap)).map initInfo).getD j dummyFrame
        = initInfo j := by
    intro e _ j _ hj
    exact getD_range_map initInfo _ j dummyFrame hj
  have hpairE : mmap.Pairwise disjointE := by
    refine hdisj.imp ?_
    intro a b hab
    rcases hab with h | h
    · exact Or.inl (index_mono h)
    · exact Or.inr (index_mono h)
  obtain ⟨hlen1, hInv1, husable1, -⟩ :=
    applyEntries_spec (findLastUsable mmap) mmap
      ((List.range (findLastUsable mmap)).map initInfo)
      { total := findLastUsable mmap, usable := 0, allocated := 0, reserved := 0,
        kernel := 0, borrowed := 0, poisoned := findLastUsable mmap }
      hlen0 hInv0 hvirgin0 hpairE
  -- the marked slice sits inside the chosen entry's (free) frame range
  obtain ⟨hbal, hlal, hlpos⟩ := halign ec hecmem
  have hL1 : 1 ≤ findLastUsable mmap := by omega
  have hfits := mark_fits hL1 heclen hlal
  have hidx : index (ec.base + ec.len) = index ec.base + ec.len / 4096 := by
    unfold index
    omega
  have hmarkfree : ∀ j, index base ≤ j →
      j < index base + findLastUsable mmap * 8 / 4096 + 1 →
      (mmap.foldl (applyEntry (findLastUsable mmap))
        ((List.range (findLastUsable mmap)).map initInfo,
         { total := findLastUsable mmap, usable := 0, allocated := 0,
           reserved := 0, kernel := 0, borrowed := 0,
           poisoned := findLastUsable mmap })).1.getD j dummyFrame
        = freeInfo j := by
    intro j h1 h2
    refine husable1 ec hecmem hectyp j ⟨by rw [hecbase]; exact h1, ?_⟩ (by omega)
    rw [hidx, hecbase]
    omega
  obtain ⟨hInvM, -⟩ :=
    markRange_spec (index base + findLastUsable mmap * 8 / 4096 + 1 - index base)
      (index base) _ _ (by rw [hlen1]; omega) hInv1
      (fun j hj1 hj2 => hmarkfree j hj1 (by omega))
  have hfin : markRange (index base)
      (index base + findLastUsable mmap * 8 / 4096 + 1 - index base)
      (mmap.foldl (applyEntry (findLastUsable mmap))
        ((List.range (findLastUsable mmap)).map initInfo,
         { total := findLastUsable mmap, usable := 0, allocated := 0,
           reserved := 0, kernel := 0, borrowed := 0,
           poisoned := findLastUsable mmap })).1
      (mmap.foldl (applyEntry (findLastUsable mmap))
        ((List.range (findLastUsable mmap)).map initInfo,
         { total := findLastUsable mmap, usable := 0, allocated := 0,
           reserved := 0, kernel := 0, borrowed := 0,
           poisoned := findLastUsable mmap })).2 = (fr, st) :=
    Option.some.inj hsetup
  rw [hfin] at hInvM
  exact hInvM

/-- Decomposition of a successful `allocate` scan: the list splits at the
first FREE frame, which is updated in place. -/
theorem allocateGo_some (k : Bool) (fr : List FrameInfo)
    (r : List FrameInfo × Nat) (h : allocateGo k fr = some r) :
    ∃ pre fi post, fr = pre ++ fi :: post ∧ fi.flags.free = true ∧
      r = (pre ++ ({ fi with
            flags := { fi.flags with kernel := fi.flags.kernel || k, free := false },
            count := fi.count + 1 }) :: post, fi.frame) := by
  induction fr generalizing r with
  | nil => simp [allocateGo] at h
  | cons fi rest ih =>
    by_cases hfree : fi.flags.free
    · refine ⟨[], fi, rest, by simp, hfree, ?_⟩
      unfold allocateGo at h
      rw [if_pos hfree] at h
      cases h
      cases k <;> simp [hfree]
    · unfold allocateGo at h
      rw [if_neg hfree] at h
      rcases hgo : allocateGo k rest with _ | r'
      · rw [hgo] at h
        simp at h
      · rw [hgo] at h
        obtain ⟨pre, fi', post, hsplit, hfree', hr'⟩ := ih r' hgo
        refine ⟨fi :: pre, fi', post, by simp [hsplit], hfree', ?_⟩
        have h' : (fi :: r'.1, r'.2) = r := by simpa using h
        rw [← h', hr']
        simp

/-- `Allocator::allocate` preserves the accounting invariant. -/
theorem allocate_inv (s : AllocState) (k : Bool)
    (h : Inv s.frames s.stats) :
    Inv (allocate s k).1.frames (allocate s k).1.stats := by
  obtain ⟨hsum, hpois, hkern, hused, hfree⟩ := h
  unfold allocate
  rcases hgo : allocateGo k s.frames with _ | r
  · exact ⟨hsum, hpois, hkern, hused, hfree⟩
  obtain ⟨pre, fi, post, hsplit, hfi, hr⟩ := allocateGo_some k s.frames r hgo
  obtain ⟨hcount0, hnk⟩ := hfree fi (by rw [hsplit]; simp) hfi
  subst hr
  rw [hsplit] at hsum hpois hkern hused
  simp only [List.countP_append, List.countP_cons] at hsum hpois hkern hused
  simp only [freeB, poisB, kernB, usedB] at hsum hpois hkern hused
  simp [hfi, hnk, hcount0] at hsum hpois hkern hused
  set X : FrameInfo := { fi with
    flags := { fi.flags with kernel := fi.flags.kernel || k, free := false },
    count := fi.count + 1 } with hX
  have hXf : freeB X = false := rfl
  have hXp : poisB X = fi.flags.poisoned := rfl
  have hXk : kernB X = (fi.flags.kernel || k) := rfl
  have hXu : usedB X = true := by simp [usedB, hX]
  rw [hnk] at hXk
  simp only [Bool.false_or] at hXk
  refine ⟨?_, ?_, ?_, ?_, ?_⟩
  · show s.stats.allocated + 1 + s.stats.reserved + s.stats.borrowed
        + List.countP freeB (pre ++ X :: post) + s.stats.poisoned = s.stats.total
    rw [List.countP_append, List.countP_cons, hXf]
    simp
    omega
  · show s.stats.poisoned = List.countP poisB (pre ++ X :: post)
    rw [List.countP_append, List.countP_cons, hXp]
    omega
  · show s.stats.kernel + (if k then 1 else 0) = List.countP kernB (pre ++ X :: post)
    rw [List.countP_append, List.countP_cons, hXk]
    cases k <;> simp <;> omega
  · show List.countP usedB (pre ++ X :: post) ≤ s.stats.allocated + 1
    rw [List.countP_append, List.countP_cons, hXu]
    simp
    omega
  · intro x hx hxfree
    rcases List.mem_append.mp hx with hx | hx
    · exact hfree x (by rw [hsplit]; simp [hx]) hxfree
    · rcases List.mem_cons.mp hx with rfl | hx
      · rw [show X.flags.free = false from rfl] at hxfree
        exact (Bool.false_ne_true hxfree).elim
      · exact hfree x (by rw [hsplit]; simp [hx]) hxfree

/-- `Allocator::deallocate` preserves the accounting invariant. -/
theorem deallocate_inv (s : AllocState) (a : Nat) (s' : AllocState)
    (h : deallocate s a = some s') (hInv : Inv s.frames s.stats) :
    Inv s'.frames s'.stats := by
  obtain ⟨hsum, hpois, hkern, hused, hfree⟩ := hInv
  unfold deallocate at h
  rcases hget : s.frames[index a]? with _ | fi
  · rw [hget] at h
    simp at h
  rw [hget] at h
  dsimp only at h
  have hilt : index a < s.frames.length := (List.getElem?_eq_some_iff.mp hget).1
  have hfiD : s.frames.getD (index a) dummyFrame = fi := by
    rw [List.getD_eq_getElem?_getD, hget]
    rfl
  have hfimem : fi ∈ s.frames := by
    rw [← hfiD]
    exact getD_mem s.frames (index a) dummyFrame hilt
  by_cases hc0 : fi.count = 0
  · rw [if_pos hc0] at h
    simp at h
  rw [if_neg hc0] at h
  have hnotfree : fi.flags.free = false := by
    by_contra hcon
    refine hc0 (hfree fi hfimem ?_).1
    cases hfc : fi.flags.free
    · exact absurd hfc hcon
    · rfl
  have husub : List.Sublist [fi] s.frames := by
    simpa using List.singleton_sublist.mpr hfimem
  have hused1 : 1 ≤ s.frames.countP usedB := by
    calc 1 = [fi].countP usedB := by
          rw [List.countP_cons, List.countP_nil]
          simp [usedB, hc0]
    _ ≤ s.frames.countP usedB := List.Sublist.countP_le usedB husub
  by_cases hc1 : fi.count - 1 = 0
  · rw [if_pos hc1] at h
    set X : FrameInfo := { fi with
      flags := { fi.flags with kernel := false, free := true },
      count := fi.count - 1 } with hX
    have hs' : s' = { frames := s.frames.set (index a) X,
                      stats := { s.stats with
                                 kernel := s.stats.kernel -
                                   (if fi.flags.kernel then 1 else 0),
                                 allocated := s.stats.allocated - 1 } } :=
      (Option.some.inj h).symm
    have hcf := countP_set freeB s.frames (index a) X dummyFrame hilt
    have hcp := countP_set poisB s.frames (index a) X dummyFrame hilt
    have hck := countP_set kernB s.frames (index a) X dummyFrame hilt
    have hcu := countP_set usedB s.frames (index a) X dummyFrame hilt
    rw [hfiD] at hcf hcp hck hcu
    have hXf : freeB X = true := rfl
    have hXp : poisB X = fi.flags.poisoned := rfl
    have hXk : kernB X = false := rfl
    have hXu : usedB X = false := by simp [usedB, hX, hc1]
    simp only [hXf, hXp, hXk, hXu] at hcf hcp hck hcu
    simp only [freeB, poisB, kernB, usedB] at hcf hcp hck hcu
    simp [hnotfree, hc0] at hcf hcp hck hcu
    have hkern1 : fi.flags.kernel = true → 1 ≤ s.frames.countP kernB := by
      intro hk
      calc 1 = [fi].countP kernB := by
            rw [List.countP_cons, List.countP_nil]
            simp [kernB, hk]
      _ ≤ s.frames.countP kernB := List.Sublist.countP_le kernB husub
    rw [hs']
    refine ⟨?_, ?_, ?_, ?_, ?_⟩
    · show s.stats.allocated - 1 + s.stats.reserved + s.stats.borrowed
          + List.countP freeB (s.frames.set (index a) X) + s.stats.poisoned
          = s.stats.total
      omega
    · show s.stats.poisoned = List.countP poisB (s.frames.set (index a) X)
      omega
    · show s.stats.kernel - (if fi.flags.kernel then 1 else 0)
          = List.countP kernB (s.frames.set (index a) X)
      by_cases hk : fi.flags.kernel
      · have := hkern1 hk
        simp only [hk] at hck ⊢
        simp at hck ⊢
        omega
      · have hkf : fi.flags.kernel = false := by
          cases hfc : fi.flags.kernel
          · rfl
          · exact absurd hfc hk
        simp only [hkf] at hck ⊢
        simp at hck ⊢
        omega
    · show List.countP usedB (s.frames.set (index a) X) ≤ s.stats.allocated - 1
      omega
    · intro x hx hxfree
      rcases List.mem_or_eq_of_mem_set hx with hin | rfl
      · exact hfree x hin hxfree
      · exact ⟨hc1, rfl⟩
  · rw [if_neg hc1] at h
    set X : FrameInfo := { fi with count := fi.count - 1 } with hX
    have hs' : s' = { s with frames := s.frames.set (index a) X } :=
      (Option.some.inj h).symm
    have hcf := countP_set freeB s.frames (index a) X dummyFrame hilt
    have hcp := countP_set poisB s.frames (index a) X dummyFrame hilt
    have hck := countP_set kernB s.frames (index a) X dummyFrame hilt
    have hcu := countP_set usedB s.frames (index a) X dummyFrame hilt
    rw [hfiD] at hcf hcp hck hcu
    have hXf : freeB X = fi.flags.free := rfl
    have hXp : poisB X = fi.flags.poisoned := rfl
    have hXk : kernB X = fi.flags.kernel := rfl
    have hXu : usedB X = true := by simp [usedB, hX, hc1]
    simp only [hXf, hXp, hXk, hXu] at hcf hcp hck hcu
    simp only [freeB, poisB, kernB, usedB] at hcf hcp hck hcu
    simp [hc0] at hcu
    rw [hs']
    refine ⟨?_, ?_, ?_, ?_, ?_⟩
    · show s.stats.allocated + s.stats.reserved + s.stats.borrowed
          + List.countP freeB (s.frames.set (index a) X) + s.stats.poisoned
          = s.stats.total
      omega
    · show s.stats.poisoned = List.countP poisB (s.frames.set (index a) X)
      omega
    · show s.stats.kernel = List.countP kernB (s.frames.set (index a) X)
      omega
    · show List.countP usedB (s.frames.set (index a) X) ≤ s.stats.allocated
      omega
    · intro x hx hxfree
      rcases List.mem_or_eq_of_mem_set hx with hin | rfl
      · exact hfree x hin hxfree
      · rw [show X.flags.free = fi.flags.free from rfl, hnotfree] at hxfree
        exact (Bool.false_ne_true hxfree).elim

/-- Any quiescent history of allocate/deallocate calls preserves the
accounting invariant. -/
theorem runAllocOps_inv (ops : List AOp) :
    ∀ (s : AllocState) (s' : AllocState),
      Inv s.frames s.stats → runAllocOps s ops = some s' →
      Inv s'.frames s'.stats := by
  induction ops with
  | nil =>
    intro s s' hInv hrun
    cases hrun
    exact hInv
  | cons op ops ih =>
    intro s s' hInv hrun
    cases op with
    | alloc k => exact ih _ s' (allocate_inv s k hInv) hrun
    | dealloc a =>
      unfold runAllocOps at hrun
      rcases hd : deallocate s a with _ | s₁
      · rw [hd] at hrun
        simp at hrun
      · rw [hd] at hrun
        exact ih s₁ s' (deallocate_inv s a s₁ hd hInv) hrun

/-- C2 (amended). For any bootloader-shaped memory map (entries page-aligned,
nonempty, pairwise disjoint), after `State::setup` and any completed sequence
of `allocate`/`deallocate` calls, the statistics satisfy
allocated + reserved + borrowed + FREE-count + poisoned = total.  The
`kernel` term of the original claim is dropped: kernel frames are already
counted in `allocated`, so including `kernel` double-counts them. -/
theorem frame_accounting_amended (mmap : List MEntry) (ops : List AOp)
    (fr : List FrameInfo) (st : Stats) (s' : AllocState)
    (halign : ∀ e ∈ mmap, e.base % 4096 = 0 ∧ e.len % 4096 = 0 ∧ 0 < e.len)
    (hdisj : mmap.Pairwise
      (fun a b => a.base + a.len ≤ b.base ∨ b.base + b.len ≤ a.base))
    (hsetup : setup mmap = some (fr, st))
    (hrun : runAllocOps ⟨fr, st⟩ ops = some s') :
    s'.stats.allocated + s'.stats.reserved + s'.stats.borrowed +
      s'.frames.countP (fun fi => fi.flags.free) + s'.stats.poisoned
      = s'.stats.total := by
  have h0 := setup_inv mmap fr st halign hdisj hsetup
  have h1 := runAllocOps_inv ops ⟨fr, st⟩ s' h0 hrun
  exact h1.1

/-- Witness for C2 (amended) at a concrete memory map and call history. -/
theorem frame_accounting_amended_witness :
    ∃ s' : AllocState,
      runAllocOps ⟨(setup [⟨0, 0x4000, .usable⟩]).elim [] Prod.fst,
                   (setup [⟨0, 0x4000, .usable⟩]).elim
                     ⟨0,0,0,0,0,0,0⟩ Prod.snd⟩
        [.alloc true, .dealloc 4096] = some s' ∧
      s'.stats.allocated + s'.stats.reserved + s'.stats.borrowed +
        s'.frames.countP (fun fi => fi.flags.free) + s'.stats.poisoned
        = s'.stats.total := by
  rcases hs : runAllocOps ⟨(setup [⟨0, 0x4000, .usable⟩]).elim [] Prod.fst,
      (setup [⟨0, 0x4000, .usable⟩]).elim ⟨0,0,0,0,0,0,0⟩ Prod.snd⟩
      [.alloc true, .dealloc 4096] with _ | s'
  · exact absurd hs (by decide)
  · refine ⟨s', rfl, ?_⟩
    refine frame_accounting_amended [⟨0, 0x4000, .usable⟩]
      [.alloc true, .dealloc 4096] _ _ s' (by decide) (by decide) ?_ hs
    decide

/-- C6. At the concrete memory map [(0, 16 KiB, Usable)] the frame array
(4 entries, 96 bytes) lives in frame 0; after `setup` that frame carries
KERNEL and not FREE as the spec says, but its reference count is 0, not 1:
the marking loop never writes the count. -/
theorem frame_array_self_marking_bug :
    (setup [⟨0, 0x4000, .usable⟩]).map
        (fun p =>
          ((p.1.getD 0 dummyFrame).flags.kernel,
           (p.1.getD 0 dummyFrame).flags.free,
           (p.1.getD 0 dummyFrame).count))
      = some (true, false, 0) := by
  decide

/-- C2 counterexample: after `setup` on [(0, 16 KiB, Usable)] the claimed sum
allocated + reserved + kernel + borrowed + FREE-count + poisoned is 5 while
total is 4 (kernel frames are counted both in `allocated` and in `kernel`). -/
theorem frame_accounting_counterexample :
    (setup [⟨0, 0x4000, .usable⟩]).map (fun p => (claimSum p.1 p.2, p.2.total))
        = some (5, 4) ∧ (5 : Nat) ≠ 4 := by
  exact ⟨by decide, by decide⟩

end Frames

/-! ## Page-table walker (src/arch/paging.rs)

The `PageTable`/`PageEntry` primitives live in the repository's
`silicium-x86_64` crate, which is not under this tree; they are modelled from
the spec: a page table is 512 8-byte entries, an entry holds a physical
address and a flag word (PRESENT = bit 0, WRITABLE = bit 1), and
`Virtual::page_index(level)` extracts the 9-bit index for that level.
Physical memory that holds page tables is a map from frame address to table;
the frame allocator is modelled with an unbounded fresh-frame counter (frame
`4096 * next` is the next to be handed out, zeroed), so `allocate` never
fails and the `OutOfMemory` paths are unreachable in the model. -/

namespace Paging

/-- Modelled from the spec: a page-table entry (`x86_64::paging::PageEntry`),
with its physical address and flag bits kept separate. -/
structure PageEntry where
  addr : Nat
  flags : Nat
deriving DecidableEq, Repr

def PRESENT : Nat := 1
def WRITABLE : Nat := 2

/-- Modelled from the spec: `PageEntry::is_present`. -/
def PageEntry.present (e : PageEntry) : Bool := e.flags.testBit 0

/-- Modelled from the spec: `Virtual::page_index(level)` — the 9-bit table
index of `v` at `lvl` (0 = PT, 1 = PD, 2 = PDPT, 3 = PML4). -/
def pageIndex (v lvl : Nat) : Nat := (v >>> (12 + 9 * lvl)) % 512

/-- The table-holding physical memory plus the fresh-frame counter. -/
structure PTState where
  mem : Nat → Nat → PageEntry
  next : Nat

def readCell (s : PTState) (f i : Nat) : PageEntry := s.mem f i

def writeCell (s : PTState) (f i : Nat) (e : PageEntry) : PTState :=
  { s with mem := fun f' i' => if f' = f ∧ i' = i then e else s.mem f' i' }

/-- `FRAME_ALLOCATOR.allocate(KERNEL | ZEROED)`: hand out the next fresh
frame, zero-filled. -/
def allocTable (s : PTState) : PTState × Nat :=
  ({ mem := fun f' i' => if f' = 4096 * s.next then ⟨0, 0⟩ else s.mem f' i',
     next := s.next + 1 }, 4096 * s.next)

/-- `creat_and_fetch_pte`: walk from `tf` at level `lvl` down to the PT
entry for `v`, allocating (zeroed) intermediate tables and marking their
parent entries `add_flags(PRESENT | WRITABLE)` + `set_address` on the way.
Returns the final state and the (frame, index) cell of the leaf entry. -/
def walkCreate (s : PTState) (tf : Nat) (v : Nat) : Nat → PTState × Nat × Nat
  | 0 => (s, tf, pageIndex v 0)
  | l+1 =>
    let e := readCell s tf (pageIndex v (l+1))
    if e.present then walkCreate s e.addr v l
    else
      let p := allocTable s
      walkCreate (writeCell p.1 tf (pageIndex v (l+1))
        ⟨p.2, e.flags ||| (PRESENT ||| WRITABLE)⟩) p.2 v l

/-- Result of `map`.  (`OutOfMemory` cannot occur with the unbounded
allocator model.) -/
inductive MapResult where
  | ok
  | alreadyMapped
deriving DecidableEq, Repr

/-- `paging::map`: walk-create to the leaf entry; fail if it is present;
allocate a fresh zeroed KERNEL frame if the given frame is null; then
`set_address` + `set_flags` on the leaf. -/
def mapPage (s : PTState) (root v frame flags : Nat) : PTState × MapResult :=
  match walkCreate s root v 3 with
  | (s₁, t, i) =>
    if (readCell s₁ t i).present then (s₁, .alreadyMapped)
    else if frame = 0 then
      match allocTable s₁ with
      | (s₂, pf) => (writeCell s₂ t i ⟨pf, flags⟩, .ok)
    else (writeCell s₁ t i ⟨frame, flags⟩, .ok)

/-- `fetch_pte`: walk without mutating; every entry on the way down,
including the leaf, must be present. -/
def fetchPte (s : PTState) (tf v : Nat) : Nat → Option PageEntry
  | 0 =>
    let e := readCell s tf (pageIndex v 0)
    if e.present then some e else none
  | l+1 =>
    let e := readCell s tf (pageIndex v (l+1))
    if e.present then fetchPte s e.addr v l else none

/-- `fetch_pte_mut`, returning the leaf cell's location instead of a mutable
reference. -/
def fetchLoc (s : PTState) (tf v : Nat) : Nat → Option (Nat × Nat)
  | 0 =>
    let e := readCell s tf (pageIndex v 0)
    if e.present then some (tf, pageIndex v 0) else none
  | l+1 =>
    let e := readCell s tf (pageIndex v (l+1))
    if e.present then fetchLoc s e.addr v l else none

/-- `paging::translate`: fetch the leaf entry; if present, its address plus
the page offset. -/
def translate (s : PTState) (root v : Nat) : Option Nat :=
  match fetchPte s root v 3 with
  | some e => if e.present then some (e.addr + v % 4096) else none
  | none => none

/-- `paging::unmap`: fetch the leaf cell; if present, capture the physical
address plus offset, clear the entry (with a TLB shootdown, not modelled),
and return the address. -/
def unmapPage (s : PTState) (root v : Nat) : PTState × Option Nat :=
  match fetchLoc s root v 3 with
  | some (t, i) =>
    let e := readCell s t i
    if e.present then (writeCell s t i ⟨0, 0⟩, some (e.addr + v % 4096))
    else (s, none)
  | none => (s, none)

/-- `paging::protection`: the leaf entry's flags, when mapped. -/
def protectionOf (s : PTState) (root v : Nat) : Option Nat :=
  match fetchPte s root v 3 with
  | some e => if e.present then some e.flags else none
  | none => none

/-- Proof device: the location of the leaf cell for `v`, requiring presence
only of the intermediate entries (not the leaf). -/
def walkTables (s : PTState) (tf v : Nat) : Nat → Option (Nat × Nat)
  | 0 => some (tf, pageIndex v 0)
  | l+1 =>
    let e := readCell s tf (pageIndex v (l+1))
    if e.present then walkTables s e.addr v l else none

/-- Proof device: the frames whose cells `walkTables` reads. -/
def wtRF (s : PTState) (tf v : Nat) : Nat → List Nat
  | 0 => []
  | l+1 =>
    let e := readCell s tf (pageIndex v (l+1))
    tf :: (if e.present then wtRF s e.addr v l else [])

/-- Proof device: the frames of the present prefix of the walk, including
the starting frame. -/
def ppf (s : PTState) (tf v : Nat) : Nat → List Nat
  | 0 => [tf]
  | l+1 =>
    let e := readCell s tf (pageIndex v (l+1))
    tf :: (if e.present then ppf s e.addr v l else [])

/-- A well-formed walk position: the frames of the present prefix are
pairwise distinct and all below the allocation frontier. -/
def PathOk (s : PTState) (root v : Nat) : Prop :=
  (ppf s root v 3).Nodup ∧ ∀ f ∈ ppf s root v 3, f < 4096 * s.next

theorem readCell_write_same (s : PTState) (f i : Nat) (e : PageEntry) :
    readCell (writeCell s f i e) f i = e := by
  simp [readCell, writeCell]

theorem readCell_write_ne (s : PTState) {f i f' i' : Nat} (e : PageEntry)
    (h : ¬(f' = f ∧ i' = i)) :
    readCell (writeCell s f i e) f' i' = readCell s f' i' := by
  simp [readCell, writeCell, h]

theorem fetchPte_zero (s : PTState) (tf v : Nat) :
    fetchPte s tf v 0 =
      if (readCell s tf (pageIndex v 0)).present
      then some (readCell s tf (pageIndex v 0)) else none := rfl

theorem fetchPte_succ (s : PTState) (tf v l : Nat) :
    fetchPte s tf v (l+1) =
      if (readCell s tf (pageIndex v (l+1))).present
      then fetchPte s (readCell s tf (pageIndex v (l+1))).addr v l
      else none := rfl

theorem fetchLoc_zero (s : PTState) (tf v : Nat) :
    fetchLoc s tf v 0 =
      if (readCell s tf (pageIndex v 0)).present
      then some (tf, pageIndex v 0) else none := rfl

theorem fetchLoc_succ (s : PTState) (tf v l : Nat) :
    fetchLoc s tf v (l+1) =
      if (readCell s tf (pageIndex v (l+1))).present
      then fetchLoc s (readCell s tf (pageIndex v (l+1))).addr v l
      else none := rfl

theorem walkTables_zero (s : PTState) (tf v : Nat) :
    walkTables s tf v 0 = some (tf, pageIndex v 0) := rfl

theorem walkTables_succ (s : PTState) (tf v l : Nat) :
    walkTables s tf v (l+1) =
      if (readCell s tf (pageIndex v (l+1))).present
      then walkTables s (readCell s tf (pageIndex v (l+1))).addr v l
      else none := rfl

theorem wtRF_zero (s : PTState) (tf v : Nat) : wtRF s tf v 0 = [] := rfl

theorem wtRF_succ (s : PTState) (tf v l : Nat) :
    wtRF s tf v (l+1) =
      tf :: (if (readCell s tf (pageIndex v (l+1))).present
             then wtRF s (readCell s tf (pageIndex v (l+1))).addr v l
             else []) := rfl

theorem ppf_zero (s : PTState) (tf v : Nat) : ppf s tf v 0 = [tf] := rfl

theorem ppf_succ (s : PTState) (tf v l : Nat) :
    ppf s tf v (l+1) =
      tf :: (if (readCell s tf (pageIndex v (l+1))).present
             then ppf s (readCell s tf (pageIndex v (l+1))).addr v l
             else []) := rfl

theorem walkCreate_zero (s : PTState) (tf v : Nat) :
    walkCreate s tf v 0 = (s, tf, pageIndex v 0) := rfl

theorem walkCreate_succ (s : PTState) (tf v l : Nat) :
    walkCreate s tf v (l+1) =
      if (readCell s tf (pageIndex v (l+1))).present
      then walkCreate s (readCell s tf (pageIndex v (l+1))).addr v l
      else walkCreate
        (writeCell (allocTable s).1 tf (pageIndex v (l+1))
          ⟨(allocTable s).2,
           (readCell s tf (pageIndex v (l+1))).flags ||| (PRESENT ||| WRITABLE)⟩)
        (allocTable s).2 v l := rfl

theorem fetchPte_present {s : PTState} {tf v : Nat} :
    ∀ {lvl : Nat} {e : PageEntry}, fetchPte s tf v lvl = some e →
      e.present = true := by
  intro lvl
  induction lvl generalizing tf with
  | zero =>
    intro e h
    rw [fetchPte_zero] at h
    by_cases hp : (readCell s tf (pageIndex v 0)).present
    · rw [if_pos hp] at h
      cases h
      exact hp
    · rw [if_neg hp] at h
      cases h
  | succ l ih =>
    intro e h
    rw [fetchPte_succ] at h
    by_cases hp : (readCell s tf (pageIndex v (l+1))).present
    · rw [if_pos hp] at h
      exact ih h
    · rw [if_neg hp] at h
      cases h

theorem fetchPte_eq_walkTables (s : PTState) (v : Nat) :
    ∀ (lvl : Nat) (tf : Nat),
      fetchPte s tf v lvl = (walkTables s tf v lvl).bind
        (fun L => if (readCell s L.1 L.2).present
                  then some (readCell s L.1 L.2) else none) := by
  intro lvl
  induction lvl with
  | zero =>
    intro tf
    rfl
  | succ l ih =>
    intro tf
    rw [fetchPte_succ, walkTables_succ]
    by_cases hp : (readCell s tf (pageIndex v (l+1))).present
    · rw [if_pos hp, if_pos hp]
      exact ih _
    · rw [if_neg hp, if_neg hp]
      rfl

theorem fetchLoc_eq_walkTables (s : PTState) (v : Nat) :
    ∀ (lvl : Nat) (tf : Nat),
      fetchLoc s tf v lvl = (walkTables s tf v lvl).bind
        (fun L => if (readCell s L.1 L.2).present then some L else none) := by
  intro lvl
  induction lvl with
  | zero =>
    intro tf
    rfl
  | succ l ih =>
    intro tf
    rw [fetchLoc_succ, walkTables_succ]
    by_cases hp : (readCell s tf (pageIndex v (l+1))).present
    · rw [if_pos hp, if_pos hp]
      exact ih _
    · rw [if_neg hp, if_neg hp]
      rfl

/-- A write to a frame not read by the walk changes neither the walk's
result nor the frames it reads. -/
theorem walkTables_stable (s : PTState) (v : Nat) (f0 j0 : Nat) (e : PageEntry) :
    ∀ (lvl : Nat) (tf : Nat) (L : Nat × Nat),
      walkTables s tf v lvl = some L → f0 ∉ wtRF s tf v lvl →
      walkTables (writeCell s f0 j0 e) tf v lvl = some L ∧
        wtRF (writeCell s f0 j0 e) tf v lvl = wtRF s tf v lvl := by
  intro lvl
  induction lvl with
  | zero =>
    intro tf L h _
    exact ⟨h, rfl⟩
  | succ l ih =>
    intro tf L h hf0
    have hne : f0 ≠ tf := by
      intro hcon
      exact hf0 (by
        rw [wtRF_succ, hcon]
        exact List.mem_cons_self _ _)
    have hrc : readCell (writeCell s f0 j0 e) tf (pageIndex v (l+1))
        = readCell s tf (pageIndex v (l+1)) :=
      readCell_write_ne s e (by intro hcon; exact hne hcon.1.symm)
    rw [walkTables_succ] at h
    rw [walkTables_succ, wtRF_succ, wtRF_succ, hrc]
    rw [wtRF_succ] at hf0
    by_cases hp : (readCell s tf (pageIndex v (l+1))).present
    · rw [if_pos hp] at h ⊢
      rw [if_pos hp] at hf0 ⊢
      have hf0' : f0 ∉ wtRF s (readCell s tf (pageIndex v (l+1))).addr v l := by
        intro hcon
        exact hf0 (List.mem_cons_of_mem _ hcon)
      obtain ⟨h1, h2⟩ := ih _ L h hf0'
      exact ⟨h1, by rw [h2, if_pos hp]⟩
    · rw [if_neg hp] at h
      cases h

theorem readCell_alloc_fresh (s : PTState) (j : Nat) :
    readCell (allocTable s).1 (4096 * s.next) j = ⟨0, 0⟩ := by
  simp [readCell, allocTable]

theorem readCell_alloc_old (s : PTState) {f : Nat} (j : Nat)
    (h : f ≠ 4096 * s.next) :
    readCell (allocTable s).1 f j = readCell s f j := by
  simp [readCell, allocTable, h]

theorem present_or_flags (p a : Nat) :
    (PageEntry.mk p (a ||| (PRESENT ||| WRITABLE))).present = true := by
  simp [PageEntry.present, PRESENT, WRITABLE, Nat.testBit_lor]

theorem ppf_fresh (s : PTState) (fr v : Nat)
    (h : ∀ j, (readCell s fr j).present = false) :
    ∀ lvl, ppf s fr v lvl = [fr] := by
  intro lvl
  cases lvl with
  | zero => rw [ppf_zero]
  | succ l =>
    rw [ppf_succ, h (pageIndex v (l+1))]
    simp

theorem fetchPte_fresh (s : PTState) (fr v : Nat)
    (h : ∀ j, (readCell s fr j).present = false) :
    ∀ lvl, fetchPte s fr v lvl = none := by
  intro lvl
  cases lvl with
  | zero =>
    rw [fetchPte_zero, h (pageIndex v 0)]
    simp
  | succ l =>
    rw [fetchPte_succ, h (pageIndex v (l+1))]
    simp

/-- The full behaviour of `creat_and_fetch_pte` on a well-formed walk
position: the frontier only grows, the leaf cell sits below the new
frontier at the level-0 index, the non-mutating walk now reaches that cell
without reading the leaf's own frame, a previously unmapped leaf is still
non-present, frames outside the present prefix are untouched, and the leaf
frame is either on the old present prefix or freshly allocated. -/
theorem walkCreate_spec (v : Nat) :
    ∀ (lvl : Nat) (s : PTState) (tf : Nat) (s' : PTState) (t i : Nat),
      walkCreate s tf v lvl = (s', t, i) →
      (ppf s tf v lvl).Nodup →
      (∀ f ∈ ppf s tf v lvl, f < 4096 * s.next) →
      s.next ≤ s'.next ∧
      t < 4096 * s'.next ∧
      i = pageIndex v 0 ∧
      walkTables s' tf v lvl = some (t, i) ∧
      t ∉ wtRF s' tf v lvl ∧
      (fetchPte s tf v lvl = none → (readCell s' t i).present = false) ∧
      (∀ f j, f < 4096 * s.next → f ∉ ppf s tf v lvl →
        readCell s' f j = readCell s f j) ∧
      (t ∈ ppf s tf v lvl ∨ 4096 * s.next ≤ t) := by
  intro lvl
  induction lvl with
  | zero =>
    intro s tf s' t i h hnd hbd
    rw [walkCreate_zero] at h
    injection h with h1 h2
    injection h2 with h2 h3
    subst h1
    subst h2
    subst h3
    refine ⟨Nat.le_refl _, ?_, rfl, walkTables_zero s tf v, ?_, ?_, ?_, ?_⟩
    · exact hbd tf (by rw [ppf_zero]; exact List.mem_singleton.mpr rfl)
    · rw [wtRF_zero]
      exact List.not_mem_nil _
    · intro hfp
      rw [fetchPte_zero] at hfp
      by_cases hp : (readCell s tf (pageIndex v 0)).present
      · rw [if_pos hp] at hfp
        cases hfp
      · simpa using hp
    · intro f j _ _
      rfl
    · left
      rw [ppf_zero]
      exact List.mem_singleton.mpr rfl
  | succ l ih =>
    intro s tf s' t i h hnd hbd
    rw [walkCreate_succ] at h
    rw [ppf_succ] at hnd hbd
    have htf_bd : tf < 4096 * s.next := hbd tf (List.mem_cons_self _ _)
    by_cases hp : (readCell s tf (pageIndex v (l+1))).present
    · rw [if_pos hp] at h hnd hbd
      have htf_nin : tf ∉ ppf s (readCell s tf (pageIndex v (l+1))).addr v l :=
        (List.nodup_cons.mp hnd).1
      have hbd' : ∀ f ∈ ppf s (readCell s tf (pageIndex v (l+1))).addr v l,
          f < 4096 * s.next := fun f hf => hbd f (List.mem_cons_of_mem _ hf)
      obtain ⟨ha, hb, hc, hd, he, hf, hg, hh⟩ :=
        ih s _ s' t i h (List.nodup_cons.mp hnd).2 hbd'
      have hcell : ∀ j, readCell s' tf j = readCell s tf j :=
        fun j => hg tf j htf_bd htf_nin
      refine ⟨ha, hb, hc, ?_, ?_, ?_, ?_, ?_⟩
      · rw [walkTables_succ, hcell (pageIndex v (l+1)), if_pos hp]
        exact hd
      · rw [wtRF_succ, hcell (pageIndex v (l+1)), if_pos hp]
        intro hmem
        rcases List.mem_cons.mp hmem with h1 | h1
        · rcases hh with h2 | h2
          · exact htf_nin (h1 ▸ h2)
          · omega
        · exact he h1
      · intro hfp
        rw [fetchPte_succ, if_pos hp] at hfp
        exact hf hfp
      · intro f j hfb hfn
        rw [ppf_succ, if_pos hp] at hfn
        exact hg f j hfb (fun hmem => hfn (List.mem_cons_of_mem _ hmem))
      · rw [ppf_succ, if_pos hp]
        rcases hh with h2 | h2
        · exact Or.inl (List.mem_cons_of_mem _ h2)
        · exact Or.inr h2
    · rw [if_neg hp] at h
      have hfrne : tf ≠ 4096 * s.next := Nat.ne_of_lt htf_bd
      set E : PageEntry :=
        ⟨(allocTable s).2,
         (readCell s tf (pageIndex v (l+1))).flags ||| (PRESENT ||| WRITABLE)⟩
        with hE
      set sB : PTState := writeCell (allocTable s).1 tf (pageIndex v (l+1)) E
        with hsB
      have hfr2 : (allocTable s).2 = 4096 * s.next := rfl
      rw [hfr2] at h
      have hsBnext : sB.next = s.next + 1 := rfl
      have hfreshcell : ∀ j, readCell sB (4096 * s.next) j = ⟨0, 0⟩ := by
        intro j
        rw [hsB]
        rw [readCell_write_ne _ E (by intro hcon; exact hfrne hcon.1.symm)]
        exact readCell_alloc_fresh s j
      have hfresh_np : ∀ j, (readCell sB (4096 * s.next) j).present = false := by
        intro j
        rw [hfreshcell j]
        rfl
      have hppfB : ppf sB (4096 * s.next) v l = [4096 * s.next] :=
        ppf_fresh sB (4096 * s.next) v hfresh_np l
      have hndB : (ppf sB (4096 * s.next) v l).Nodup := by
        rw [hppfB]
        exact List.nodup_singleton _
      have hbdB : ∀ f ∈ ppf sB (4096 * s.next) v l, f < 4096 * sB.next := by
        intro f hfmem
        rw [hppfB] at hfmem
        rw [List.mem_singleton] at hfmem
        rw [hfmem, hsBnext]
        omega
      obtain ⟨ha, hb, hc, hd, he, hf, hg, hh⟩ :=
        ih sB (4096 * s.next) s' t i h hndB hbdB
      have hroot : readCell s' tf (pageIndex v (l+1)) = E := by
        rw [hg tf (pageIndex v (l+1)) (by omega)
          (by rw [hppfB, List.mem_singleton]; exact hfrne)]
        rw [hsB]
        exact readCell_write_same _ tf (pageIndex v (l+1)) E
      have hEp : E.present = true := present_or_flags _ _
      have hEaddr : E.addr = 4096 * s.next := rfl
      refine ⟨by omega, hb, hc, ?_, ?_, ?_, ?_, ?_⟩
      · rw [walkTables_succ, hroot, if_pos hEp, hEaddr]
        exact hd
      · rw [wtRF_succ, hroot, if_pos hEp, hEaddr]
        intro hmem
        rcases List.mem_cons.mp hmem with h1 | h1
        · rcases hh with h2 | h2
          · rw [hppfB, List.mem_singleton] at h2
            omega
          · omega
        · exact he h1
      · intro _
        exact hf (fetchPte_fresh sB (4096 * s.next) v hfresh_np l)
      · intro f j hfb hfn
        rw [ppf_succ, if_neg hp] at hfn
        have hfne_tf : f ≠ tf := by
          intro hcon
          exact hfn (by rw [hcon]; exact List.mem_cons_self _ _)
        have hfne_fr : f ≠ 4096 * s.next := by omega
        rw [hg f j (by omega) (by rw [hppfB, List.mem_singleton]; exact hfne_fr)]
        rw [hsB]
        rw [readCell_write_ne _ E (by intro hcon; exact hfne_tf hcon.1)]
        exact readCell_alloc_old s j hfne_fr
      · rcases hh with h2 | h2
        · rw [hppfB, List.mem_singleton] at h2
          exact Or.inr (by omega)
        · exact Or.inr (by omega)

theorem mapPage_eq (s : PTState) (root v frame flags : Nat) (sW : PTState)
    (t i : Nat) (h : walkCreate s root v 3 = (sW, t, i)) :
    mapPage s root v frame flags =
      if (readCell sW t i).present then (sW, .alreadyMapped)
      else if frame = 0 then
        (writeCell (allocTable sW).1 t i ⟨(allocTable sW).2, flags⟩, .ok)
      else (writeCell sW t i ⟨frame, flags⟩, .ok) := by
  unfold mapPage
  rw [h]

theorem unmapPage_eq_some (s : PTState) (root v t i : Nat)
    (h : fetchLoc s root v 3 = some (t, i)) :
    unmapPage s root v =
      if (readCell s t i).present
      then (writeCell s t i ⟨0, 0⟩, some ((readCell s t i).addr + v % 4096))
      else (s, none) := by
  unfold unmapPage
  rw [h]

theorem translate_eq_some {s : PTState} {root v : Nat} {e : PageEntry}
    (h : fetchPte s root v 3 = some e) :
    translate s root v = if e.present then some (e.addr + v % 4096) else none := by
  unfold translate
  rw [h]

theorem translate_eq_none {s : PTState} {root v : Nat}
    (h : fetchPte s root v 3 = none) :
    translate s root v = none := by
  unfold translate
  rw [h]

theorem translate_congr {s₁ s₂ : PTState} {root v : Nat}
    (h : fetchPte s₁ root v 3 = fetchPte s₂ root v 3) :
    translate s₁ root v = translate s₂ root v := by
  unfold translate
  rw [h]

theorem protectionOf_eq_some {s : PTState} {root v : Nat} {e : PageEntry}
    (h : fetchPte s root v 3 = some e) :
    protectionOf s root v = if e.present then some e.flags else none := by
  unfold protectionOf
  rw [h]

/-- Allocating a fresh table leaves any walk that stays below the old
frontier unchanged. -/
theorem allocTable_walk_eq (s : PTState) (v : Nat) :
    ∀ (lvl tf : Nat), (∀ f ∈ ppf s tf v lvl, f < 4096 * s.next) →
      ppf (allocTable s).1 tf v lvl = ppf s tf v lvl ∧
      fetchPte (allocTable s).1 tf v lvl = fetchPte s tf v lvl := by
  intro lvl
  induction lvl with
  | zero =>
    intro tf hbd
    have htf : tf < 4096 * s.next :=
      hbd tf (by rw [ppf_zero]; exact List.mem_singleton.mpr rfl)
    have hc : readCell (allocTable s).1 tf (pageIndex v 0)
        = readCell s tf (pageIndex v 0) :=
      readCell_alloc_old s _ (Nat.ne_of_lt htf)
    exact ⟨by rw [ppf_zero, ppf_zero],
           by rw [fetchPte_zero, fetchPte_zero, hc]⟩
  | succ l ih =>
    intro tf hbd
    have htf : tf < 4096 * s.next := by
      apply hbd tf
      rw [ppf_succ]
      exact List.mem_cons_self _ _
    have hc : ∀ j, readCell (allocTable s).1 tf j = readCell s tf j :=
      fun j => readCell_alloc_old s j (Nat.ne_of_lt htf)
    by_cases hp : (readCell s tf (pageIndex v (l+1))).present
    · have hbd' : ∀ f ∈ ppf s (readCell s tf (pageIndex v (l+1))).addr v l,
          f < 4096 * s.next := by
        intro f hf
        apply hbd f
        rw [ppf_succ, if_pos hp]
        exact List.mem_cons_of_mem _ hf
      obtain ⟨ih1, ih2⟩ := ih _ hbd'
      constructor
      · rw [ppf_succ, ppf_succ, hc (pageIndex v (l+1)), if_pos hp, if_pos hp,
          ih1]
      · rw [fetchPte_succ, fetchPte_succ, hc (pageIndex v (l+1)), if_pos hp,
          if_pos hp, ih2]
    · constructor
      · rw [ppf_succ, ppf_succ, hc (pageIndex v (l+1)), if_neg hp, if_neg hp]
      · rw [fetchPte_succ, fetchPte_succ, hc (pageIndex v (l+1)), if_neg hp,
          if_neg hp]

theorem mapping_round_trip_core (s : PTState) (root v p flags : Nat)
    (hpath : PathOk s root v)
    (hunm : translate s root v = none)
    (halign : v % 4096 = 0)
    (hpres : flags.testBit 0 = true)
    (hp0 : p ≠ 0) :
    ∃ s₁ s₂,
      mapPage s root v p flags = (s₁, .ok) ∧
      translate s₁ root v = some p ∧
      protectionOf s₁ root v = some flags ∧
      unmapPage s₁ root v = (s₂, some p) ∧
      translate s₂ root v = none := by
  obtain ⟨hnd, hbd⟩ := hpath
  rcases hwc : walkCreate s root v 3 with ⟨sW, t, i⟩
  have hfpnone : fetchPte s root v 3 = none := by
    rcases hfp : fetchPte s root v 3 with _ | e
    · rfl
    · have hep := fetchPte_present hfp
      rw [translate_eq_some hfp, if_pos hep] at hunm
      cases hunm
  obtain ⟨ha, hb, hc, hd, he, hf, hg, hh⟩ :=
    walkCreate_spec v 3 s root sW t i hwc hnd hbd
  have hnp : (readCell sW t i).present = false := hf hfpnone
  have hnp' : ¬((readCell sW t i).present = true) := by simp [hnp]
  have hmap : mapPage s root v p flags = (writeCell sW t i ⟨p, flags⟩, .ok) := by
    rw [mapPage_eq s root v p flags sW t i hwc, if_neg hnp', if_neg hp0]
  set s₁ : PTState := writeCell sW t i ⟨p, flags⟩ with hs1
  obtain ⟨hwt1, hwrf1⟩ :=
    walkTables_stable sW v t i ⟨p, flags⟩ 3 root (t, i) hd he
  have hrc1 : readCell s₁ t i = ⟨p, flags⟩ := readCell_write_same sW t i _
  have hpres' : (PageEntry.mk p flags).present = true := hpres
  have hfp1 : fetchPte s₁ root v 3 = some ⟨p, flags⟩ := by
    rw [fetchPte_eq_walkTables s₁ v 3 root, hwt1]
    show (if (readCell s₁ t i).present then some (readCell s₁ t i)
          else none) = some ⟨p, flags⟩
    rw [hrc1, if_pos hpres']
  have htr1 : translate s₁ root v = some p := by
    rw [translate_eq_some hfp1, if_pos hpres']
    simp [halign]
  have hpr1 : protectionOf s₁ root v = some flags := by
    rw [protectionOf_eq_some hfp1, if_pos hpres']
  have hfl1 : fetchLoc s₁ root v 3 = some (t, i) := by
    rw [fetchLoc_eq_walkTables s₁ v 3 root, hwt1]
    show (if (readCell s₁ t i).present then some ((t, i) : Nat × Nat)
          else none) = some (t, i)
    rw [hrc1, if_pos hpres']
  have hun1 : unmapPage s₁ root v = (writeCell s₁ t i ⟨0, 0⟩, some p) := by
    rw [unmapPage_eq_some s₁ root v t i hfl1, hrc1, if_pos hpres']
    simp [halign]
  set s₂ : PTState := writeCell s₁ t i ⟨0, 0⟩ with hs2
  obtain ⟨hwt2, _⟩ :=
    walkTables_stable s₁ v t i ⟨0, 0⟩ 3 root (t, i) hwt1
      (by rw [hwrf1]; exact he)
  have hrc2 : readCell s₂ t i = ⟨0, 0⟩ := readCell_write_same s₁ t i _
  have h00 : (PageEntry.mk 0 0).present = false := rfl
  have hfp2 : fetchPte s₂ root v 3 = none := by
    rw [fetchPte_eq_walkTables s₂ v 3 root, hwt2]
    show (if (readCell s₂ t i).present then some (readCell s₂ t i)
          else none) = none
    rw [hrc2, h00]
    simp
  exact ⟨s₁, s₂, hmap, htr1, hpr1, hun1, translate_eq_none hfp2⟩

/-- Claim C1, counterexample to the claim as stated: it quantifies over
*every* physical frame `p`, but for the null frame `p = 0` `map` silently
allocates a fresh frame and installs that instead (`frame.is_null()`
branch), so the subsequent `translate` returns the fresh frame's address
(here 20480), not `Some(0)` — even though `v` was page-aligned, unmapped,
and the flags include PRESENT. -/
theorem mapping_round_trip_counterexample :
    translate { mem := fun _ _ => (⟨0, 0⟩ : PageEntry), next := 2 } 4096 0
      = none ∧
    Nat.testBit 3 0 = true ∧
    (mapPage { mem := fun _ _ => (⟨0, 0⟩ : PageEntry), next := 2 }
      4096 0 0 3).2 = .ok ∧
    translate (mapPage { mem := fun _ _ => (⟨0, 0⟩ : PageEntry), next := 2 }
      4096 0 0 3).1 4096 0 = some 20480 ∧
    (20480 : Nat) ≠ 0 :=
  ⟨by decide, by decide, by decide, by decide, by decide⟩

/-- Claim C1 (amended: the physical frame must be non-null): for every
page-aligned virtual address `v` on a well-formed walk position, every
physical frame `p ≠ 0` and flags including PRESENT, if `v` is unmapped
then `map` returns Ok, `translate` then yields `p`, `unmap` returns `p`,
and afterwards `translate` yields nothing. -/
theorem mapping_round_trip (s : PTState) (root v p flags : Nat)
    (hpath : PathOk s root v)
    (hunm : translate s root v = none)
    (halign : v % 4096 = 0)
    (hpres : flags.testBit 0 = true)
    (hp0 : p ≠ 0) :
    ∃ s₁ s₂,
      mapPage s root v p flags = (s₁, .ok) ∧
      translate s₁ root v = some p ∧
      unmapPage s₁ root v = (s₂, some p) ∧
      translate s₂ root v = none := by
  obtain ⟨s₁, s₂, h1, h2, _, h4, h5⟩ :=
    mapping_round_trip_core s root v p flags hpath hunm halign hpres hp0
  exact ⟨s₁, s₂, h1, h2, h4, h5⟩

/-- Witness for C1: the round trip at a concrete state, with `v = 0`,
`p = 40960` and flags `PRESENT | WRITABLE`. -/
theorem mapping_round_trip_witness :
    ∃ s₁ s₂,
      mapPage { mem := fun _ _ => (⟨0, 0⟩ : PageEntry), next := 2 }
        4096 0 40960 3 = (s₁, .ok) ∧
      translate s₁ 4096 0 = some 40960 ∧
      unmapPage s₁ 4096 0 = (s₂, some 40960) ∧
      translate s₂ 4096 0 = none :=
  mapping_round_trip { mem := fun _ _ => (⟨0, 0⟩ : PageEntry), next := 2 }
    4096 0 40960 3 ⟨by decide, by decide⟩ (by decide) (by decide) (by decide)
    (by decide)

end Paging

/-! ## Vmalloc allocator and demand paging (src/src/mm/vmm.rs)

Free virtual areas live in `FREE_VMA : BTreeMap<usize, Vec<VirtualArea>>`
(buckets keyed by size, iterated in ascending key order) and used areas in
`USED_VMA : BTreeMap<Virtual, VirtualArea>`; both are modelled as
association lists sorted by ascending key.  The physical frame allocator
behind demand paging is the same unbounded model as for page tables
(`Paging.allocTable`), so the `OUT_OF_MEMORY` path of the fault handler is
unreachable in the model. -/

namespace Vmm

/-- `vmm::AllocationFlags` (u64 bitflags, `ATOMIC = 1 << 1`,
`MAP = 1 << 2`, `ZEROED = 1 << 3`), as a record of the individually tested
bits. -/
structure AllocationFlags where
  atomic : Bool
  map : Bool
  zeroed : Bool
deriving DecidableEq, Repr

/-- `vmm::Flags` (only `MAP` and `ZEROED`). -/
structure Flags where
  map : Bool
  zeroed : Bool
deriving DecidableEq, Repr

/-- `Flags::from_bits_truncate(flags.bits)`: the `ATOMIC` bit is not part
of `Flags` and is dropped. -/
def Flags.ofAllocation (f : AllocationFlags) : Flags := ⟨f.map, f.zeroed⟩

/-- Modelled from the spec: `x86_64::address::VirtualRange` with exclusive
end. -/
structure VirtualRange where
  start : Nat
  stop : Nat
deriving DecidableEq, Repr

/-- Modelled from the spec: `VirtualRange::size`. -/
def VirtualRange.size (r : VirtualRange) : Nat := r.stop - r.start

/-- Modelled from the spec: `VirtualRange::contains`. -/
def VirtualRange.containsB (r : VirtualRange) (a : Nat) : Bool :=
  decide (r.start ≤ a) && decide (a < r.stop)

/-- `vmm::VirtualArea`. -/
structure VirtualArea where
  range : VirtualRange
  flags : Flags
deriving DecidableEq, Repr

/-- `insert_free_vma` / the duplicated push in `find_free_first_fit`:
`Vec::push` onto the existing size bucket, or insert a fresh singleton
bucket at its sorted key position. -/
def pushFree : List (Nat × List VirtualArea) → VirtualArea →
    List (Nat × List VirtualArea)
  | [], vma => [(vma.range.size, [vma])]
  | (len, vec) :: rest, vma =>
    if vma.range.size = len then (len, vec ++ [vma]) :: rest
    else if vma.range.size < len then
      (vma.range.size, [vma]) :: (len, vec) :: rest
    else (len, vec) :: pushFree rest vma

/-- The search in `find_free_first_fit`: the first bucket (ascending key
order) whose key fits the size and whose vector is non-empty. -/
def firstFitKey (size : Nat) : List (Nat × List VirtualArea) → Option Nat
  | [] => none
  | (len, vec) :: rest =>
    if size ≤ len ∧ vec ≠ [] then some len else firstFitKey size rest

/-- `Vec::pop` on the chosen bucket: drop its last element. -/
def popBucket (fm : List (Nat × List VirtualArea)) (key : Nat) :
    List (Nat × List VirtualArea) :=
  fm.map (fun b => if b.1 = key then (b.1, b.2.dropLast) else b)

def bucketOf (fm : List (Nat × List VirtualArea)) (key : Nat) :
    Option (List VirtualArea) :=
  (fm.find? (fun b => b.1 == key)).map Prod.snd

/-- `find_free_first_fit`: pop the last area of the first big-enough
bucket; if it is strictly larger than the request, keep the front part
(flags preserved) and reinsert the tail as a fresh `NONE`-flagged free
area. -/
def findFreeFirstFit (fm : List (Nat × List VirtualArea)) (size : Nat) :
    Option (VirtualArea × List (Nat × List VirtualArea)) :=
  match firstFitKey size fm with
  | none => none
  | some key =>
    match (bucketOf fm key).bind List.getLast? with
    | none => none
    | some vma =>
      if size < vma.range.size then
        some ({ vma with range := ⟨vma.range.start, vma.range.start + size⟩ },
          pushFree (popBucket fm key)
            ⟨⟨vma.range.start + size, vma.range.stop⟩, ⟨false, false⟩⟩)
      else some (vma, popBucket fm key)

/-- `insert_used_vma`: `BTreeMap::insert` keyed by the area's start. -/
def insertUsed : List (Nat × VirtualArea) → VirtualArea →
    List (Nat × VirtualArea)
  | [], vma => [(vma.range.start, vma)]
  | (k, a) :: rest, vma =>
    if vma.range.start = k then (k, vma) :: rest
    else if vma.range.start < k then
      (vma.range.start, vma) :: (k, a) :: rest
    else (k, a) :: insertUsed rest vma

/-- The two vmalloc maps. -/
structure VmmState where
  free : List (Nat × List VirtualArea)
  used : List (Nat × VirtualArea)
deriving DecidableEq, Repr

inductive AllocationError where
  | outOfMemory
  | wouldBlock
deriving DecidableEq, Repr

/-- Result of `vmm::allocate`; `panicked` models the `unimplemented!()`
macro. -/
inductive AllocResult where
  | ok (range : VirtualRange) (st : VmmState)
  | err (e : AllocationError)
  | panicked
deriving DecidableEq, Repr

/-- `(size.wrapping_add(0xFFF)) & !0xFFF` on a 64-bit usize. -/
def alignedSize (size : Nat) : Nat := (size + 0xFFF) % 2 ^ 64 / 4096 * 4096

/-- `vmm::allocate`: round the size up, first-fit a free area (error
`OutOfMemory` if none), then — before anything else — hit
`unimplemented!()` if `ATOMIC` is set; otherwise store the area (flags
truncated from the allocation flags) in the used map and return its
range. -/
def allocate (st : VmmState) (size : Nat) (flags : AllocationFlags) :
    AllocResult :=
  match findFreeFirstFit st.free (alignedSize size) with
  | none => .err .outOfMemory
  | some (vma, free') =>
    if flags.atomic = true then .panicked
    else .ok vma.range
      { free := free',
        used := insertUsed st.used { vma with flags := Flags.ofAllocation flags } }

inductive PageFaultError where
  | missingPage
  | notMappable
  | outOfMemory
deriving DecidableEq, Repr

/-- Result of `handle_demand_paging`: success carries the final table
state and whether the frame allocation requested the `ZEROED` frame flag;
`panicked` models the `panic!("Page already mapped")` arm. -/
inductive DemandResult where
  | ok (s : Paging.PTState) (zeroedRequested : Bool)
  | err (e : PageFaultError)
  | panicked

/-- `Virtual::page_align_down`. -/
def pageAlignDown (a : Nat) : Nat := a / 4096 * 4096

/-- `vmm::handle_demand_paging`: align the address down, look up the
owning used area (ascending start order) — `MISSING_PAGE` if none,
`NOT_MAPPABLE` if it lacks `MAP` — then allocate a frame (`ZEROED`
requested iff the area has it; the unbounded model never fails, so
`OUT_OF_MEMORY` is unreachable) and map it with `PRESENT | WRITABLE`,
panicking if the page was already mapped. -/
def handleDemandPaging (used : List (Nat × VirtualArea))
    (s : Paging.PTState) (root addr : Nat) : DemandResult :=
  match used.find? (fun b => b.2.range.containsB (pageAlignDown addr)) with
  | none => .err .missingPage
  | some kv =>
    if kv.2.flags.map = false then .err .notMappable
    else
      match Paging.mapPage (Paging.allocTable s).1 root (pageAlignDown addr)
          (Paging.allocTable s).2 (Paging.PRESENT ||| Paging.WRITABLE) with
      | (s', .ok) => .ok s' kv.2.flags.zeroed
      | (_, .alreadyMapped) => .panicked

theorem handleDemandPaging_find_none (used : List (Nat × VirtualArea))
    (s : Paging.PTState) (root addr : Nat)
    (h : used.find? (fun b => b.2.range.containsB (pageAlignDown addr))
      = none) :
    handleDemandPaging used s root addr = .err .missingPage := by
  unfold handleDemandPaging
  rw [h]

theorem handleDemandPaging_find_some (used : List (Nat × VirtualArea))
    (s : Paging.PTState) (root addr : Nat) (kv : Nat × VirtualArea)
    (h : used.find? (fun b => b.2.range.containsB (pageAlignDown addr))
      = some kv) :
    handleDemandPaging used s root addr =
      if kv.2.flags.map = false then .err .notMappable
      else
        match Paging.mapPage (Paging.allocTable s).1 root (pageAlignDown addr)
            (Paging.allocTable s).2 (Paging.PRESENT ||| Paging.WRITABLE) with
        | (s', .ok) => .ok s' kv.2.flags.zeroed
        | (_, .alreadyMapped) => .panicked := by
  unfold handleDemandPaging
  rw [h]

theorem pageAlignDown_mod (a : Nat) : pageAlignDown a % 4096 = 0 :=
  Nat.mul_mod_left _ _

/-- Claim C5: refuted.  The claim promises `WouldBlock` when an `ATOMIC`
allocation cannot eagerly map without blocking, but `allocate` never
returns `WouldBlock` at all: whenever `ATOMIC` is set and a free area was
found it hits `unimplemented!()` and panics (the only other outcome being
`OutOfMemory` when no area fits, reached before the flag is even
inspected). -/
theorem vmalloc_atomic_never_wouldblock (st : VmmState) (size : Nat)
    (flags : AllocationFlags) (h : flags.atomic = true) :
    (allocate st size flags = .panicked ∨
     allocate st size flags = .err .outOfMemory) ∧
    allocate st size flags ≠ .err .wouldBlock := by
  rcases hf : findFreeFirstFit st.free (alignedSize size) with _ | ⟨vma, free'⟩
  · unfold allocate
    rw [hf]
    exact ⟨Or.inr rfl, by simp⟩
  · unfold allocate
    rw [hf]
    dsimp only
    rw [if_pos h]
    exact ⟨Or.inl rfl, by simp⟩

/-- Witness for C5: an `ATOMIC | MAP` request of one page against a free
map holding a single 16 KiB area panics (in the model, and in the source
hits `unimplemented!()`), and in particular is not `WouldBlock`. -/
theorem vmalloc_atomic_never_wouldblock_witness :
    (AllocationFlags.mk true true false).atomic = true ∧
    ((allocate
        ⟨[(16384, [⟨⟨1048576, 1064960⟩, ⟨false, false⟩⟩])], []⟩
        4096 ⟨true, true, false⟩ = .panicked ∨
      allocate
        ⟨[(16384, [⟨⟨1048576, 1064960⟩, ⟨false, false⟩⟩])], []⟩
        4096 ⟨true, true, false⟩ = .err .outOfMemory) ∧
     allocate
        ⟨[(16384, [⟨⟨1048576, 1064960⟩, ⟨false, false⟩⟩])], []⟩
        4096 ⟨true, true, false⟩ ≠ .err .wouldBlock) :=
  ⟨rfl, vmalloc_atomic_never_wouldblock
    ⟨[(16384, [⟨⟨1048576, 1064960⟩, ⟨false, false⟩⟩])], []⟩
    4096 ⟨true, true, false⟩ rfl⟩

/-- Claim C7: the demand-paging handler returns `MISSING_PAGE` when no
used area contains the page-aligned fault address, `NOT_MAPPABLE` when
the owning area lacks `MAP`, and otherwise (on a well-formed, unmapped
walk position) allocates the next frame — requesting `ZEROED` exactly
when the area has it — and maps it at the faulting page with
`PRESENT | WRITABLE`. -/
theorem demand_paging_spec (used : List (Nat × VirtualArea))
    (s : Paging.PTState) (root addr : Nat) :
    (used.find? (fun b => b.2.range.containsB (pageAlignDown addr)) = none →
      handleDemandPaging used s root addr = .err .missingPage) ∧
    (∀ kv, used.find? (fun b => b.2.range.containsB (pageAlignDown addr))
        = some kv →
      kv.2.flags.map = false →
      handleDemandPaging used s root addr = .err .notMappable) ∧
    (∀ kv, used.find? (fun b => b.2.range.containsB (pageAlignDown addr))
        = some kv →
      kv.2.flags.map = true →
      Paging.PathOk s root (pageAlignDown addr) →
      Paging.translate s root (pageAlignDown addr) = none →
      0 < s.next →
      ∃ s', handleDemandPaging used s root addr = .ok s' kv.2.flags.zeroed ∧
        Paging.translate s' root (pageAlignDown addr) = some (4096 * s.next) ∧
        Paging.protectionOf s' root (pageAlignDown addr)
          = some (Paging.PRESENT ||| Paging.WRITABLE)) := by
  refine ⟨?_, ?_, ?_⟩
  · intro h
    exact handleDemandPaging_find_none used s root addr h
  · intro kv h hmap
    rw [handleDemandPaging_find_some used s root addr kv h, if_pos hmap]
  · intro kv h hmap hpath hunm hn
    have hbd : ∀ f ∈ Paging.ppf s root (pageAlignDown addr) 3,
        f < 4096 * s.next := hpath.2
    obtain ⟨hppf, hfp⟩ :=
      Paging.allocTable_walk_eq s (pageAlignDown addr) 3 root hbd
    have hnext1 : (Paging.allocTable s).1.next = s.next + 1 := rfl
    have hpath' : Paging.PathOk (Paging.allocTable s).1 root
        (pageAlignDown addr) := by
      constructor
      · rw [hppf]
        exact hpath.1
      · intro f hf
        rw [hppf] at hf
        have := hpath.2 f hf
        omega
    have hunm' : Paging.translate (Paging.allocTable s).1 root
        (pageAlignDown addr) = none := by
      rw [Paging.translate_congr hfp]
      exact hunm
    have hfr : (Paging.allocTable s).2 = 4096 * s.next := rfl
    have hp0 : (Paging.allocTable s).2 ≠ 0 := by
      rw [hfr]
      omega
    obtain ⟨s₁, s₂, hmapok, htr, hprot, _, _⟩ :=
      Paging.mapping_round_trip_core (Paging.allocTable s).1 root
        (pageAlignDown addr) (Paging.allocTable s).2
        (Paging.PRESENT ||| Paging.WRITABLE) hpath' hunm'
        (pageAlignDown_mod addr) (by decide) hp0
    refine ⟨s₁, ?_, ?_, hprot⟩
    · rw [handleDemandPaging_find_some used s root addr kv h,
        if_neg (by simp [hmap]), hmapok]
    · rw [htr, hfr]

/-- Witness for C7, all three cases at one concrete used map (area
`[0x1000, 0x2000)` without MAP, area `[0x2000, 0x3000)` with MAP and
ZEROED) over a fresh two-frame table state. -/
theorem demand_paging_spec_witness :
    handleDemandPaging
      [(4096, ⟨⟨4096, 8192⟩, ⟨false, false⟩⟩),
       (8192, ⟨⟨8192, 12288⟩, ⟨true, true⟩⟩)]
      { mem := fun _ _ => (⟨0, 0⟩ : Paging.PageEntry), next := 2 }
      4096 20480 = .err .missingPage ∧
    handleDemandPaging
      [(4096, ⟨⟨4096, 8192⟩, ⟨false, false⟩⟩),
       (8192, ⟨⟨8192, 12288⟩, ⟨true, true⟩⟩)]
      { mem := fun _ _ => (⟨0, 0⟩ : Paging.PageEntry), next := 2 }
      4096 4113 = .err .notMappable ∧
    ∃ s', handleDemandPaging
      [(4096, ⟨⟨4096, 8192⟩, ⟨false, false⟩⟩),
       (8192, ⟨⟨8192, 12288⟩, ⟨true, true⟩⟩)]
      { mem := fun _ _ => (⟨0, 0⟩ : Paging.PageEntry), next := 2 }
      4096 8197 = .ok s' true ∧
      Paging.translate s' 4096 8192 = some 8192 ∧
      Paging.protectionOf s' 4096 8192 = some 3 := by
  refine ⟨?_, ?_, ?_⟩
  · exact (demand_paging_spec
      [(4096, ⟨⟨4096, 8192⟩, ⟨false, false⟩⟩),
       (8192, ⟨⟨8192, 12288⟩, ⟨true, true⟩⟩)]
      { mem := fun _ _ => (⟨0, 0⟩ : Paging.PageEntry), next := 2 }
      4096 20480).1 (by decide)
  · exact (demand_paging_spec
      [(4096, ⟨⟨4096, 8192⟩, ⟨false, false⟩⟩),
       (8192, ⟨⟨8192, 12288⟩, ⟨true, true⟩⟩)]
      { mem := fun _ _ => (⟨0, 0⟩ : Paging.PageEntry), next := 2 }
      4096 4113).2.1 (4096, ⟨⟨4096, 8192⟩, ⟨false, false⟩⟩)
      (by decide) (by decide)
  · exact (demand_paging_spec
      [(4096, ⟨⟨4096, 8192⟩, ⟨false, false⟩⟩),
       (8192, ⟨⟨8192, 12288⟩, ⟨true, true⟩⟩)]
      { mem := fun _ _ => (⟨0, 0⟩ : Paging.PageEntry), next := 2 }
      4096 8197).2.2 (8192, ⟨⟨8192, 12288⟩, ⟨true, true⟩⟩)
      (by decide) (by decide) ⟨by decide, by decide⟩ (by decide) (by decide)

end Vmm

/-! ## Process teardown (src/src/sys/process.rs)

`PROCESSES` maps PIDs to shared (`Arc`) process objects; each process
stores its parent's PID and `Arc`s to its children (identified here by
their PIDs).  The PID bitmap is the `Ids` state already embedded for
C9/C10. -/

namespace Proc

/-- One process record as visible to `Drop` and `delete`: its PID, its
parent's PID (`parent: Spinlock<Option<Pid>>`) and its children's PIDs
(`children: Spinlock<Vec<Arc<Process>>>`). -/
structure ProcRec where
  pid : Nat
  parent : Option Nat
  children : List Nat
deriving DecidableEq, Repr

/-- `impl Drop for Process` (process.rs:132-140): the body is exactly
`self.pid.release()`.  No process record — in particular no child's
`parent` field — is modified; the process table is returned unchanged
alongside the updated PID bitmap. -/
def dropProcess (procs : List (Nat × ProcRec)) (bits : Ids.IdState)
    (p : ProcRec) : List (Nat × ProcRec) × Ids.IdState :=
  (procs, Ids.release bits p.pid)

/-- `Process::set_parent` as it acts on the process table (the child is a
shared `Arc`, so the update is visible through the table). -/
def setParent (procs : List (Nat × ProcRec)) (child : Nat)
    (par : Option Nat) : List (Nat × ProcRec) :=
  procs.map (fun kv =>
    if kv.1 = child then (kv.1, { kv.2 with parent := par }) else kv)

/-- `Process::add_child` on the process table: push the child's PID. -/
def addChild (procs : List (Nat × ProcRec)) (par child : Nat) :
    List (Nat × ProcRec) :=
  procs.map (fun kv =>
    if kv.1 = par then
      (kv.1, { kv.2 with children := kv.2.children ++ [child] })
    else kv)

/-- `process::delete` (process.rs:264-273): remove the process from the
table (`unwrap` panics — `none` — if absent), look up init
(`find(Pid(1)).unwrap()`), then reparent each drained child to PID 1 and
append it to init's child list.  This — not `Drop` — is where reparenting
lives. -/
def deleteProcess (procs : List (Nat × ProcRec)) (pid : Nat) :
    Option (List (Nat × ProcRec)) :=
  match (procs.find? (fun kv => kv.1 == pid)).map Prod.snd with
  | none => none
  | some p =>
    match (procs.filter (fun kv => kv.1 != pid)).find? (fun kv => kv.1 == 1)
      with
    | none => none
    | some _ =>
      some (p.children.foldl
        (fun acc c => addChild (setParent acc c (some 1)) 1 c)
        (procs.filter (fun kv => kv.1 != pid)))

/-- Claim C3: refuted.  Dropping process 5 (child list `[7]`, with
processes 1, 5, 7 live) releases PID 5 from the bitmap, yet child 7's
parent is still PID 5 — not PID 1 — afterwards: `Drop`'s body only calls
`self.pid.release()` and never performs the reparenting its own comment
promises (that code exists only in `process::delete`). -/
theorem process_drop_no_reparent :
    ((dropProcess
        [(1, ⟨1, none, []⟩), (5, ⟨5, some 1, [7]⟩), (7, ⟨7, some 5, []⟩)]
        ⟨0, 3, fun i => if i = 0 then 2 ^ 1 ||| 2 ^ 5 ||| 2 ^ 7 else 0⟩
        ⟨5, some 1, [7]⟩).1.find? (fun kv => kv.1 == 7)).map
      (fun kv => kv.2.parent) = some (some 5) ∧
    some (some 5) ≠ some (some (1 : Nat)) ∧
    Ids.bitOf (dropProcess
        [(1, ⟨1, none, []⟩), (5, ⟨5, some 1, [7]⟩), (7, ⟨7, some 5, []⟩)]
        ⟨0, 3, fun i => if i = 0 then 2 ^ 1 ||| 2 ^ 5 ||| 2 ^ 7 else 0⟩
        ⟨5, some 1, [7]⟩).2.words 5 = false ∧
    Ids.bitOf
      (fun i => if i = 0 then 2 ^ 1 ||| 2 ^ 5 ||| 2 ^ 7 else (0 : Nat))
      5 = true := by
  refine ⟨by decide, by decide, by decide, by decide⟩

end Proc

end Silicium
